import Mathlib

/-!
Verification of the RAG ingestion-and-evaluation pipeline.

Texts are shallowly embedded as `List Char`.  The Python helpers
`extract_text_from_pdf`, `clean_text` (seven regex passes) and
`calculate_accuracy` are translated pass by pass; `re.sub` is modelled with
its leftmost, non-overlapping match semantics, matching performed on the
original string.  Components that live in external libraries
(the LangChain text splitter, the MongoDB vector search, the fact extractor)
are modelled from the specification, as indicated on their doc strings.
-/

namespace RagPipeline

/-- Horizontal whitespace as matched by the regex class in pass 1 of
`clean_text`, namely a space or a tab. -/
def isHWS (c : Char) : Bool := c = ' ' || c = '\t'

/-- The character class of the Python regex `\s` (ASCII fragment), which is
also the set stripped by `str.strip`. -/
def isPyWS (c : Char) : Bool :=
  c = ' ' || c = '\t' || c = '\n' || c = '\r' || c = '\x0b' || c = '\x0c'

/-- A plain space, used by passes 3 and 6 of `clean_text`. -/
def isSp (c : Char) : Bool := c = ' '

/-- Dropping a prefix never lengthens a list; used for termination of the
pass scanners. -/
theorem length_dropWhile_le (p : Char → Bool) (l : List Char) :
    (l.dropWhile p).length ≤ l.length :=
  (List.dropWhile_suffix p).length_le

/-- The lowercase letters of the Vietnamese regex class used by pass 4 of
`clean_text`: ASCII `a`-`z` together with the diacritic letters listed in
the source's `vietnamese_lower` character class. -/
def vietLower (c : Char) : Bool :=
  ('a' ≤ c && c ≤ 'z') ||
  c ∈ ['à','á','ạ','ả','ã','â','ầ','ấ','ậ','ẩ','ẫ','ă','ằ','ắ','ặ','ẳ','ẵ',
       'è','é','ẹ','ẻ','ẽ','ê','ề','ế','ệ','ể','ễ',
       'ì','í','ị','ỉ','ĩ',
       'ò','ó','ọ','ỏ','õ','ô','ồ','ố','ộ','ổ','ỗ','ơ','ờ','ớ','ợ','ở','ỡ',
       'ù','ú','ụ','ủ','ũ','ư','ừ','ứ','ự','ử','ữ',
       'ỳ','ý','ỵ','ỷ','ỹ','đ']

/-- Pass 1 of `clean_text`: the substitution of `[ \t]+` by a single space.
Each maximal run of spaces and tabs becomes one space. -/
def pass1 : List Char → List Char
  | [] => []
  | c :: rest =>
    if isHWS c then ' ' :: pass1 (rest.dropWhile isHWS) else c :: pass1 rest
termination_by l => l.length
decreasing_by
  · have := length_dropWhile_le isHWS rest
    simp only [List.length_cons]
    omega
  · simp

/-- The index of the last newline inside the whitespace run that begins a
list, if any.  This drives the greedy match of `\n\s*\n` in pass 2 of
`clean_text`: the match extends to the last newline reachable through
whitespace. -/
def lastNLIdx (l : List Char) : Option Nat :=
  ((List.range (l.takeWhile isPyWS).length).filter
    (fun k => (l.takeWhile isPyWS)[k]? == some '\n')).getLast?

/-- Pass 2 of `clean_text`: the substitution of `\n\s*\n` by `\n\n`.  On a
newline, the greedy `\s*` reaches to the last newline in the following
whitespace run; the whole match is replaced by a paragraph break. -/
def pass2 : List Char → List Char
  | [] => []
  | c :: rest =>
    if c = '\n' then
      match lastNLIdx rest with
      | some k => '\n' :: '\n' :: pass2 (rest.drop (k + 1))
      | none => '\n' :: pass2 rest
    else c :: pass2 rest
termination_by l => l.length
decreasing_by
  · have := List.length_drop (k + 1) rest
    simp only [List.length_cons]
    omega
  · simp
  · simp

/-- Pass 3 of `clean_text`: the substitution of ` *\n *` by `\n`, removing
spaces immediately before and after a line break. -/
def pass3 : List Char → List Char
  | [] => []
  | c :: rest =>
    if c = '\n' then '\n' :: pass3 (rest.dropWhile isSp)
    else if c = ' ' then
      match h : rest.dropWhile isSp with
      | '\n' :: rest2 => '\n' :: pass3 (rest2.dropWhile isSp)
      | r => (' ' :: rest.takeWhile isSp) ++ pass3 r
    else c :: pass3 rest
termination_by l => l.length
decreasing_by
  · have := length_dropWhile_le isSp rest
    simp only [List.length_cons]
    omega
  · have h1 := length_dropWhile_le isSp rest
    have h2 := length_dropWhile_le isSp rest2
    rw [h] at h1
    simp only [List.length_cons] at *
    omega
  · have h1 := length_dropWhile_le isSp rest
    rw [h] at h1
    simp only [List.length_cons]
    omega
  · simp

/-- Pass 4 of `clean_text`: rejoining words split by a line break.  The
regex `([viet])\n([viet])` is matched left to right without overlap: a
successful match consumes all three characters, so the trailing letter is
not available as the leading letter of the next match. -/
def pass4 : List Char → List Char
  | a :: '\n' :: b :: rest =>
    if vietLower a && vietLower b then a :: ' ' :: b :: pass4 rest
    else a :: pass4 ('\n' :: b :: rest)
  | a :: rest => a :: pass4 rest
  | [] => []
termination_by l => l.length
decreasing_by all_goals simp_arith

/-- Pass 5 of `clean_text`: the substitution of `(?<!\n)\n(?!\n)` by a
space.  The lookarounds are zero width and refer to the original string, so
a newline is replaced exactly when neither original neighbour is a
newline (string boundaries count as non-newlines). -/
def pass5 (l : List Char) : List Char :=
  l.mapIdx (fun i c =>
    if c = '\n' ∧ ¬ (i ≠ 0 ∧ l[i - 1]? = some '\n') ∧ l[i + 1]? ≠ some '\n'
    then ' ' else c)

/-- Pass 6 of `clean_text`: the substitution of ` +` by a single space. -/
def pass6 : List Char → List Char
  | [] => []
  | c :: rest =>
    if c = ' ' then ' ' :: pass6 (rest.dropWhile isSp) else c :: pass6 rest
termination_by l => l.length
decreasing_by
  · have := length_dropWhile_le isSp rest
    simp only [List.length_cons]
    omega
  · simp

/-- Pass 7 of `clean_text`: Python's `str.strip`, removing leading and
trailing whitespace. -/
def pyStrip (l : List Char) : List Char :=
  ((l.dropWhile isPyWS).reverse.dropWhile isPyWS).reverse

/-- The text normalizer `clean_text` from `embed_pdfs_to_mongo.py`: seven
ordered cleaning passes over PDF-extracted text. -/
def clean_text (l : List Char) : List Char :=
  pyStrip (pass6 (pass5 (pass4 (pass3 (pass2 (pass1 l))))))

/-- The PDF text extractor `extract_text_from_pdf`: the page texts are
concatenated in order, each page that yields text is followed by a line
break, and a page yielding no text is skipped. -/
def extract_text_from_pdf (pages : List (List Char)) : List Char :=
  pages.foldl (fun acc p => if p.isEmpty then acc else acc ++ p ++ ['\n']) []

/-- The spec's description of the extractor output: the concatenation of the
texts of the non-empty pages in page order, each followed by a line
break. -/
def pageConcatSpec (pages : List (List Char)) : List Char :=
  ((pages.filter (fun p => !p.isEmpty)).map (fun p => p ++ ['\n'])).flatten

/-! ## Chunker

The source configures LangChain's `RecursiveCharacterTextSplitter` with
`chunk_size = 1000`, `chunk_overlap = 200` and separator priority
`paragraph break, line break, sentence end, space, hard cut`; the splitting
algorithm itself is library code not present in the repository, so it is
modelled from the specification (§4.2). -/

/-- The separator priority list of the configured splitter, the empty
last-resort separator meaning a hard character cut being represented by the
end of the list. -/
def sepList : List (List Char) := [['\n', '\n'], ['\n'], ['.', ' '], [' ']]

/-- The largest position in `w`, at most `w.length`, at which an occurrence
of the separator `sep` ends, if any: the largest `e` with `sep` a suffix of
the first `e` characters of `w`. -/
def lastSepEnd (w sep : List Char) : Option Nat :=
  ((List.range (w.length + 1)).filter (fun e => sep.isSuffixOf (w.take e))).getLast?

/-- Modelled from the spec: the cut position inside the current window.  The
largest prefix of the window ending at an occurrence of the
highest-priority separator present is chosen; if no separator occurs, the
cut is at exactly `maxC` characters (the empty last-resort separator). -/
def cutLen (w : List Char) : List (List Char) → Nat → Nat
  | [], maxC => maxC
  | sep :: rest, maxC =>
    match lastSepEnd w sep with
    | some e => e
    | none => cutLen w rest maxC

/-- Modelled from the spec: the splitting loop of the chunker, started at
offset `s`.  While more than `maxC` characters remain, a segment is cut in
the window of the next `maxC` characters; the next segment starts
`ov` characters before the emitted segment's end — repeating `ov`
characters of trailing context — but never before (or at) the previous
start, which keeps the scan advancing.  When at most `maxC` characters
remain they form the final segment.  Segments are returned as
(start offset, length) spans into `text`. -/
def chunkSpansAux (text : List Char) (maxC ov : Nat) (s : Nat) : List (Nat × Nat) :=
  if text.length - s ≤ maxC then [(s, text.length - s)]
  else
    (s, cutLen ((text.drop s).take maxC) sepList maxC) ::
      chunkSpansAux text maxC ov
        (max (s + cutLen ((text.drop s).take maxC) sepList maxC - ov) (s + 1))
termination_by text.length - s
decreasing_by
  have hs : s < text.length := by omega
  omega

/-- Modelled from the spec: the chunker `text_splitter` applied to a whole
document, as the list of (start offset, length) spans of its segments. -/
def text_splitter (text : List Char) (maxC ov : Nat) : List (Nat × Nat) :=
  chunkSpansAux text maxC ov 0

/-- The texts of the segments produced by the chunker. -/
def chunk_texts (text : List Char) (maxC ov : Nat) : List (List Char) :=
  (text_splitter text maxC ov).map (fun p => (text.drop p.1).take p.2)

/-- Concatenation of the segments with the overlapping portions removed:
each segment contributes only the part of its text that lies beyond what
has already been rebuilt. -/
def deoverlapConcat (pieces : List (Nat × List Char)) : List Char :=
  pieces.foldl (fun acc p => acc ++ p.2.drop (acc.length - p.1)) []

/-- The segments of a document as (start offset, segment text) pairs. -/
def chunk_pieces (text : List Char) (maxC ov : Nat) : List (Nat × List Char) :=
  (text_splitter text maxC ov).map (fun p => (p.1, (text.drop p.1).take p.2))

/-! ### Chunker lemmas -/

/-- A successful `lastSepEnd` lies within the window and, for a non-empty
separator, is positive. -/
theorem lastSepEnd_bounds (w sep : List Char) (e : Nat)
    (h : lastSepEnd w sep = some e) :
    e ≤ w.length ∧ (sep ≠ [] → 1 ≤ e) := by
  rw [lastSepEnd] at h
  have hmem := List.mem_of_mem_getLast? h
  rw [List.mem_filter] at hmem
  obtain ⟨hrange, hsuf⟩ := hmem
  rw [List.mem_range] at hrange
  refine ⟨by omega, ?_⟩
  intro hne
  rw [List.isSuffixOf_iff_suffix] at hsuf
  have hlen := hsuf.length_le
  have : 1 ≤ sep.length := by
    cases sep with
    | nil => exact absurd rfl hne
    | cons a t => simp
  have := List.length_take e w ▸ hlen
  omega

/-- If some character of the separator does not occur in the window, no
occurrence of the separator ends in the window. -/
theorem lastSepEnd_eq_none (w sep : List Char) (c : Char)
    (hc : c ∈ sep) (hw : c ∉ w) : lastSepEnd w sep = none := by
  rw [lastSepEnd]
  have : (List.range (w.length + 1)).filter
      (fun e => sep.isSuffixOf (w.take e)) = [] := by
    rw [List.filter_eq_nil_iff]
    intro e _
    intro hsuf
    rw [List.isSuffixOf_iff_suffix] at hsuf
    exact hw (List.take_subset e w (hsuf.subset hc))
  rw [this]
  rfl

/-- Characterisation of `lastSepEnd` as the greatest end position of an
occurrence. -/
theorem lastSepEnd_eq_some (w sep : List Char) (e : Nat)
    (hle : e ≤ w.length) (he : sep.isSuffixOf (w.take e))
    (hmax : ∀ e2, e < e2 → e2 ≤ w.length → ¬ sep.isSuffixOf (w.take e2)) :
    lastSepEnd w sep = some e := by
  rw [lastSepEnd]
  have hsplit : w.length + 1 = (e + 1) + (w.length - e) := by omega
  rw [hsplit, List.range_add, List.filter_append]
  have h2 : (List.map (fun x => e + 1 + x) (List.range (w.length - e))).filter
      (fun e2 => sep.isSuffixOf (w.take e2)) = [] := by
    rw [List.filter_eq_nil_iff]
    intro e2 hmem
    rw [List.mem_map] at hmem
    obtain ⟨x, hx, rfl⟩ := hmem
    rw [List.mem_range] at hx
    intro hsuf
    exact hmax (e + 1 + x) (by omega) (by omega) hsuf
  rw [h2, List.append_nil, List.range_succ, List.filter_append]
  have h3 : [e].filter (fun e2 => sep.isSuffixOf (w.take e2)) = [e] := by
    simp [he]
  rw [h3, List.getLast?_concat]

/-- The hard cut: when no separator occurs in the window, the cut is at
exactly `maxC`. -/
theorem cutLen_eq_hard (w : List Char) (maxC : Nat)
    (hnl : '\n' ∉ w) (hsp : ' ' ∉ w) :
    cutLen w sepList maxC = maxC := by
  rw [sepList, cutLen, lastSepEnd_eq_none w _ '\n' (by simp) hnl,
    cutLen, lastSepEnd_eq_none w _ '\n' (by simp) hnl,
    cutLen, lastSepEnd_eq_none w _ ' ' (by simp) hsp,
    cutLen, lastSepEnd_eq_none w _ ' ' (by simp) hsp, cutLen]

/-- The cut never exceeds window length or `maxC`, whichever is larger, and
is positive when `maxC` is. -/
theorem cutLen_bounds (w : List Char) (seps : List (List Char)) (maxC : Nat)
    (hseps : ∀ sep ∈ seps, sep ≠ []) (hmax : 1 ≤ maxC) :
    cutLen w seps maxC ≤ max maxC w.length ∧ 1 ≤ cutLen w seps maxC := by
  induction seps with
  | nil =>
    rw [cutLen]
    omega
  | cons sep rest ih =>
    match h : lastSepEnd w sep with
    | some e =>
      rw [cutLen, h]
      show e ≤ max maxC w.length ∧ 1 ≤ e
      have hb := lastSepEnd_bounds w sep e h
      have hne := hseps sep (by simp)
      have := hb.2 hne
      omega
    | none =>
      rw [cutLen, h]
      show cutLen w rest maxC ≤ max maxC w.length ∧ 1 ≤ cutLen w rest maxC
      exact ih (fun s hs => hseps s (List.mem_cons_of_mem _ hs))

/-- Every list of spans produced by the chunker is non-empty and starts at
the requested offset. -/
theorem chunkSpansAux_head (text : List Char) (maxC ov s : Nat) :
    ∃ l rest, chunkSpansAux text maxC ov s = (s, l) :: rest := by
  rw [chunkSpansAux]
  split
  · exact ⟨_, _, rfl⟩
  · exact ⟨_, _, rfl⟩

/-- Unfolding of a non-final chunker step. -/
theorem chunkSpansAux_step (text : List Char) (maxC ov s : Nat)
    (h : ¬ text.length - s ≤ maxC) :
    chunkSpansAux text maxC ov s =
      (s, cutLen ((text.drop s).take maxC) sepList maxC) ::
        chunkSpansAux text maxC ov
          (max (s + cutLen ((text.drop s).take maxC) sepList maxC - ov) (s + 1)) := by
  rw [chunkSpansAux, if_neg h]

/-- Unfolding of the final chunker step. -/
theorem chunkSpansAux_final (text : List Char) (maxC ov s : Nat)
    (h : text.length - s ≤ maxC) :
    chunkSpansAux text maxC ov s = [(s, text.length - s)] := by
  rw [chunkSpansAux, if_pos h]

/-- The separators of the configured splitter are all non-empty. -/
theorem sepList_ne_nil : ∀ sep ∈ sepList, sep ≠ [] := by decide

/-- Every non-final cut is positive and at most `maxC`. -/
theorem cut_window_bounds (text : List Char) (maxC s : Nat) (hmax : 1 ≤ maxC) :
    1 ≤ cutLen ((text.drop s).take maxC) sepList maxC ∧
      cutLen ((text.drop s).take maxC) sepList maxC ≤ maxC := by
  have hb := cutLen_bounds ((text.drop s).take maxC) sepList maxC sepList_ne_nil hmax
  have hw : ((text.drop s).take maxC).length ≤ maxC := by
    rw [List.length_take]
    omega
  omega

/-- Consecutive spans: each next start is `overlap_chars` before the
previous end, clamped to advance, and every non-final span is non-empty. -/
theorem chunkSpansAux_chain (text : List Char) (maxC ov : Nat) (hmax : 1 ≤ maxC)
    (s : Nat) :
    List.Chain' (fun a b : Nat × Nat =>
      b.1 = max (a.1 + a.2 - ov) (a.1 + 1) ∧ 1 ≤ a.2)
      (chunkSpansAux text maxC ov s) := by
  induction s using chunkSpansAux.induct text maxC ov with
  | case1 x hx =>
    rw [chunkSpansAux_final text maxC ov x hx]
    exact List.chain'_singleton _
  | case2 x hx ih =>
    rw [chunkSpansAux_step text maxC ov x hx]
    rw [List.chain'_cons']
    refine ⟨?_, ih⟩
    intro y hy
    obtain ⟨l, rest, heq⟩ := chunkSpansAux_head text maxC ov
      (max (x + cutLen ((text.drop x).take maxC) sepList maxC - ov) (x + 1))
    rw [heq] at hy
    simp only [List.head?_cons, Option.mem_some_iff] at hy
    subst hy
    exact ⟨rfl, (cut_window_bounds text maxC x hmax).1⟩

/-- Every character position from the scan start is covered by a span. -/
theorem chunkSpansAux_cover (text : List Char) (maxC ov : Nat) (hmax : 1 ≤ maxC)
    (s : Nat) :
    ∀ i, s ≤ i → i < text.length →
      ∃ p ∈ chunkSpansAux text maxC ov s, p.1 ≤ i ∧ i < p.1 + p.2 := by
  induction s using chunkSpansAux.induct text maxC ov with
  | case1 x hx =>
    intro i hsi hi
    rw [chunkSpansAux_final text maxC ov x hx]
    exact ⟨(x, text.length - x), by simp, hsi, by simp; omega⟩
  | case2 x hx ih =>
    intro i hsi hi
    rw [chunkSpansAux_step text maxC ov x hx]
    by_cases hcase : i < x + cutLen ((text.drop x).take maxC) sepList maxC
    · exact ⟨(x, cutLen ((text.drop x).take maxC) sepList maxC), by simp, hsi, hcase⟩
    · have hcut := cut_window_bounds text maxC x hmax
      obtain ⟨p, hp, hpi⟩ := ih i (by omega) hi
      exact ⟨p, List.mem_cons_of_mem _ hp, hpi⟩

/-- Glueing step for the de-overlapped reconstruction: appending the part
of a span's text that lies beyond the rebuilt prefix extends the prefix to
the span's end. -/
theorem take_glue (text : List Char) (x m cut : Nat) (hxm : x ≤ m) :
    text.take m ++ ((text.drop x).take cut).drop (m - x) =
      text.take (max m (x + cut)) := by
  rw [List.drop_take, List.drop_drop, Nat.add_sub_cancel' hxm, ← List.take_add]
  congr 1
  omega

/-- The fold of the de-overlapped concatenation, started with any rebuilt
prefix reaching at least to the scan start, rebuilds the whole text. -/
theorem chunkSpansAux_rebuild (text : List Char) (maxC ov : Nat)
    (hmax : 1 ≤ maxC) (s : Nat) :
    ∀ m, s ≤ m → m ≤ text.length →
      (chunkSpansAux text maxC ov s).foldl
        (fun acc p => acc ++ ((text.drop p.1).take p.2).drop (acc.length - p.1))
        (text.take m) = text := by
  induction s using chunkSpansAux.induct text maxC ov with
  | case1 x hx =>
    intro m hsm hm
    rw [chunkSpansAux_final text maxC ov x hx, List.foldl_cons, List.foldl_nil]
    rw [List.length_take, Nat.min_eq_left hm, take_glue text x m _ hsm]
    have hmx : max m (x + (text.length - x)) = text.length := by omega
    rw [hmx, List.take_length]
  | case2 x hx ih =>
    intro m hsm hm
    rw [chunkSpansAux_step text maxC ov x hx, List.foldl_cons]
    rw [List.length_take, Nat.min_eq_left hm, take_glue text x m _ hsm]
    have hcut := cut_window_bounds text maxC x hmax
    exact ih (max m (x + cutLen ((text.drop x).take maxC) sepList maxC))
      (by omega) (by omega)

/-! ## Fact extractor and accuracy scorer -/

/-- An ASCII decimal digit. -/
def isDigitC (c : Char) : Bool := '0' ≤ c && c ≤ '9'

/-- Uppercase letters recognised by the proper-noun rule: ASCII `A`-`Z`
together with common uppercase Vietnamese diacritic letters.  Modelled from
the spec: the fact extractor's source is not in the repository. -/
def isUpperC (c : Char) : Bool :=
  ('A' ≤ c && c ≤ 'Z') ||
  c ∈ ['À','Á','Ạ','Ả','Ã','Â','Ă','È','É','Ẹ','Ê','Ì','Í','Ị',
       'Ò','Ó','Ọ','Ô','Ơ','Ù','Ú','Ụ','Ư','Ỳ','Ý','Đ']

/-- Whether a list begins with a digit. -/
def headDigit : List Char → Bool
  | d :: _ => isDigitC d
  | [] => false

/-- Modelled from the spec: the numeric-token scanner.  Reading left to
right, a token starts at a digit; a digit extends the current token; a
locale separator (`,`, `.`) or date separator (`/`) extends it when
immediately followed by another digit; a percent sign ends it, included;
any other character ends it.  `acc` holds the reversed token in progress,
`inTok` whether one is in progress. -/
def numScanGo : Bool → List Char → List Char → List (List Char)
  | inTok, acc, [] => if inTok then [acc.reverse] else []
  | true, acc, c :: rest =>
    if isDigitC c then numScanGo true (c :: acc) rest
    else if ((c = ',' ∨ c = '.' ∨ c = '/') ∧ headDigit rest) then
      numScanGo true (c :: acc) rest
    else if c = '%' then ('%' :: acc).reverse :: numScanGo false [] rest
    else acc.reverse :: numScanGo false [] rest
  | false, _, c :: rest =>
    if isDigitC c then numScanGo true [c] rest else numScanGo false [] rest

/-- Modelled from the spec: all numeric tokens (integers, decimals,
percentages, numeric dates and years) occurring in a text, in order. -/
def numScan (l : List Char) : List (List Char) :=
  numScanGo false [] l

/-- The words of a text: maximal runs of non-space characters. -/
def wordsOf (l : List Char) : List (List Char) :=
  (l.foldr (fun c acc =>
    if isSp c then [] :: acc
    else
      match acc with
      | w :: acc2 => (c :: w) :: acc2
      | [] => [[c]]) []).filter (fun w => !w.isEmpty)

/-- Whether a word begins with an uppercase letter. -/
def headUpper : List Char → Bool
  | [] => false
  | c :: _ => isUpperC c

/-- Appends a run of capitalized words to the collected facts: runs of at
least two words become one fact, joined by single spaces. -/
def flushRun (run : List (List Char)) (facts : List (List Char)) :
    List (List Char) :=
  if 2 ≤ run.length then List.intercalate [' '] run :: facts else facts

/-- Modelled from the spec: capitalized multi-word sequences.  Maximal runs
of at least two consecutive capitalized words are collected, joined by
single spaces. -/
def capSeqFacts (ws : List (List Char)) : List (List Char) :=
  let st := ws.foldr (fun w st =>
    if headUpper w then (w :: st.1, st.2) else ([], flushRun st.1 st.2))
    ([], [])
  flushRun st.1 st.2

/-- Modelled from the spec: the known honorific abbreviations recognised by
the proper-noun rule. -/
def honorifics : List (List Char) :=
  [['P','G','S','.','T','S'], ['G','S','.','T','S'], ['T','h','S'], ['T','S','.']]

/-- Modelled from the spec: the fact extractor `extract_key_facts`.  Its
source is not in the repository; per the spec it extracts numeric tokens
(integers, decimals, percentages), numeric dates and years, and proper
nouns (capitalized multi-word sequences and known honorific abbreviations),
returning a set — duplicates collapsed. -/
def extract_key_facts (gt : List Char) : List (List Char) :=
  (numScan gt ++ capSeqFacts (wordsOf gt) ++
    honorifics.filter (fun hf => decide (hf <:+: gt))).dedup

/-- Cased characters, over the character domain in play: ASCII letters,
Greek letters, and the Vietnamese letters of the extractor.  Modelled from
the Unicode default case conversion that Python's `str.lower()`
implements. -/
def isCasedC (c : Char) : Bool :=
  ('A' ≤ c && c ≤ 'Z') || ('a' ≤ c && c ≤ 'z') ||
  (0x391 ≤ c.toNat && c.toNat ≤ 0x3C9) || isUpperC c || vietLower c

/-- Case-ignorable characters (the relevant subset: apostrophe, full stop
and colon), skipped by the context scan of the Final_Sigma rule. -/
def isCaseIgnorable (c : Char) : Bool :=
  c = '\'' || c = '.' || c = ':'

/-- Whether the first non-case-ignorable character of a list is cased: the
directional context scan of the Final_Sigma rule. -/
def casedAfterSkip : List Char → Bool
  | [] => false
  | c :: rest => if isCaseIgnorable c then casedAfterSkip rest else isCasedC c

/-- The lowercase pairs of the uppercase Vietnamese letters recognised by
the extractor. -/
def vietLowerPairs : List (Char × Char) :=
  [('À','à'),('Á','á'),('Ạ','ạ'),('Ả','ả'),('Ã','ã'),('Â','â'),('Ă','ă'),
   ('È','è'),('É','é'),('Ẹ','ẹ'),('Ê','ê'),('Ì','ì'),('Í','í'),('Ị','ị'),
   ('Ò','ò'),('Ó','ó'),('Ọ','ọ'),('Ô','ô'),('Ơ','ơ'),('Ù','ù'),('Ú','ú'),
   ('Ụ','ụ'),('Ư','ư'),('Ỳ','ỳ'),('Ý','ý'),('Đ','đ')]

/-- The context-free part of Unicode lowercasing on the characters in
play: ASCII `A`-`Z`, the Greek capitals (capital sigma defaulting to the
non-final form), and the Vietnamese capitals; everything else is fixed. -/
def lowerChar (c : Char) : Char :=
  if 'A' ≤ c && c ≤ 'Z' then Char.ofNat (c.toNat + 32)
  else if (0x391 ≤ c.toNat && c.toNat ≤ 0x3A1) ||
      (0x3A3 ≤ c.toNat && c.toNat ≤ 0x3AB) then Char.ofNat (c.toNat + 32)
  else
    match vietLowerPairs.find? (fun p => p.1 == c) with
    | some p => p.2
    | none => c

/-- Lowercasing as used by the scorer's `str.lower()` calls: the Unicode
default case conversion, modelled on the character domain in play.  Every
character lowers context-freely except the capital sigma, which obeys the
context-sensitive Final_Sigma rule: it becomes the final form `ς` exactly
when it is preceded (skipping case-ignorable characters) by a cased
character and not followed (skipping case-ignorable characters) by one,
and the non-final `σ` otherwise. -/
def lowerStr (l : List Char) : List Char :=
  l.mapIdx (fun i c =>
    if c = 'Σ' then
      if casedAfterSkip (l.take i).reverse && !(casedAfterSkip (l.drop (i + 1)))
      then 'ς' else 'σ'
    else lowerChar c)

/-- The accuracy scorer `calculate_accuracy` from the comparison notebook:
the extracted ground-truth facts are checked one by one for
case-insensitive substring containment in the model answer, and the matched
proportion is returned.  The Python code divides by `len(gt_facts)`
unconditionally and raises `ZeroDivisionError` when no fact was extracted;
the raise is modelled by `none`. -/
def calculate_accuracy (model_answer ground_truth : List Char) : Option ℚ :=
  let gt_facts := extract_key_facts ground_truth
  if gt_facts.isEmpty then none
  else
    some (((gt_facts.countP
      (fun f => decide (lowerStr f <:+: lowerStr model_answer)) : ℚ)) /
      (gt_facts.length : ℚ))

/-- The number of ground-truth facts contained case-insensitively in the
model answer. -/
def matchedFacts (model_answer ground_truth : List Char) : Nat :=
  (extract_key_facts ground_truth).countP
    (fun f => decide (lowerStr f <:+: lowerStr model_answer))

/-! ## Retriever -/

/-- Modelled from the spec: the Vector Index's `similarity_search`.  The
index and its cosine scoring live in MongoDB Atlas, outside the repository;
the similarity of a stored record to the fixed query is abstracted as the
function `sim`, and the search returns the `k` records of greatest
similarity, in non-increasing order. -/
def similarity_search {ρ : Type} (sim : ρ → ℚ) (store : List ρ) (k : Nat) :
    List ρ :=
  (store.insertionSort (fun a b => sim b ≤ sim a)).take k

/-- The retriever `retrieve_context`: the texts of the top-`k` records are
joined with a paragraph-break separator, in similarity-descending order,
without deduplication. -/
def retrieve_context {ρ : Type} (sim : ρ → ℚ) (content : ρ → List Char)
    (store : List ρ) (k : Nat) : List Char :=
  List.intercalate ['\n', '\n'] ((similarity_search sim store k).map content)

/-! ## Helper lemmas -/

/-- A page yielding no text contributes nothing to the spec's
concatenation. -/
theorem pageConcatSpec_cons_empty (p : List Char) (ps : List (List Char))
    (hp : p.isEmpty = true) : pageConcatSpec (p :: ps) = pageConcatSpec ps := by
  rw [pageConcatSpec, pageConcatSpec, List.filter_cons]
  simp [hp]

/-- A page yielding text contributes its text and a line break. -/
theorem pageConcatSpec_cons_nonempty (p : List Char) (ps : List (List Char))
    (hp : ¬ p.isEmpty = true) :
    pageConcatSpec (p :: ps) = (p ++ ['\n']) ++ pageConcatSpec ps := by
  rw [pageConcatSpec, pageConcatSpec, List.filter_cons]
  simp [hp]

/-- Unfolding lemma for `extract_text_from_pdf`'s fold. -/
theorem extract_text_foldl (pages : List (List Char)) (acc : List Char) :
    pages.foldl (fun acc p => if p.isEmpty then acc else acc ++ p ++ ['\n']) acc =
      acc ++ pageConcatSpec pages := by
  induction pages generalizing acc with
  | nil => simp [pageConcatSpec]
  | cons p ps ih =>
    rw [List.foldl_cons]
    by_cases hp : p.isEmpty
    · rw [if_pos hp, ih, pageConcatSpec_cons_empty p ps hp]
    · rw [if_neg hp, ih, pageConcatSpec_cons_nonempty p ps hp]
      simp [List.append_assoc]

/-! ## Claims -/

/-- Claim C9: text extraction skips any page that yields no text without
aborting the document; the extracted text equals the concatenation of the
texts of the non-empty pages in page order, each followed by a line break,
regardless of how many pages are empty. -/
theorem claim_C9 (pages : List (List Char)) :
    extract_text_from_pdf pages = pageConcatSpec pages ∧
    extract_text_from_pdf pages =
      extract_text_from_pdf (pages.filter (fun p => !p.isEmpty)) := by
  have key : ∀ qs : List (List Char), extract_text_from_pdf qs = pageConcatSpec qs := by
    intro qs
    have h := extract_text_foldl qs []
    rw [List.nil_append] at h
    exact h
  refine ⟨key pages, ?_⟩
  rw [key pages, key (pages.filter (fun p => !p.isEmpty))]
  rw [pageConcatSpec, pageConcatSpec, List.filter_filter]
  simp only [Bool.and_self]

/-- Claim C2: on a ground truth with no extractable facts the scorer does
not produce a numeric score from 0/0; the code raises `ZeroDivisionError`
(modelled by `none`) instead of flagging the question as unscoreable, so
the claim's flag-and-exclude behaviour is not implemented. -/
theorem claim_C2 (ans : List Char) :
    extract_key_facts "xin chào".data = [] ∧
    calculate_accuracy ans "xin chào".data = none := by
  have hf : extract_key_facts "xin chào".data = [] := by decide
  exact ⟨hf, by simp [calculate_accuracy, hf]⟩

/-- Claim C1: whenever the ground truth has a non-empty fact set, the score
is the number of facts contained case-insensitively in the model answer
divided by the total number of facts, hence lies in the interval 0 to 1;
and on the Vietnamese scenario with facts 428 and 1976 the score of the
answer containing only 428 is one half. -/
theorem claim_C1 :
    (∀ ans gt : List Char, extract_key_facts gt ≠ [] →
      calculate_accuracy ans gt =
        some ((matchedFacts ans gt : ℚ) / ((extract_key_facts gt).length : ℚ)) ∧
      ∀ q : ℚ, calculate_accuracy ans gt = some q → 0 ≤ q ∧ q ≤ 1) ∧
    calculate_accuracy "Trường hiện có 428 sinh viên".data
      "Trường có 428 sinh viên, thành lập năm 1976".data = some (1/2 : ℚ) := by
  constructor
  · intro ans gt h
    have hne : ¬ (extract_key_facts gt).isEmpty := by
      simpa [List.isEmpty_iff] using h
    constructor
    · rw [calculate_accuracy, if_neg (by simpa using hne)]
      rfl
    · intro q hq
      rw [calculate_accuracy, if_neg (by simpa using hne)] at hq
      have hlen : 0 < ((extract_key_facts gt).length : ℚ) := by
        have : 0 < (extract_key_facts gt).length :=
          List.length_pos.mpr h
        exact_mod_cast this
      injection hq with hq
      constructor
      · rw [← hq]
        positivity
      · rw [← hq, div_le_one hlen]
        exact_mod_cast List.countP_le_length _
  · have hf : extract_key_facts "Trường có 428 sinh viên, thành lập năm 1976".data =
        ["428".data, "1976".data] := by decide
    have hc : List.countP
        (fun f => decide (lowerStr f <:+: lowerStr "Trường hiện có 428 sinh viên".data))
        ["428".data, "1976".data] = 1 := by decide
    rw [calculate_accuracy]
    rw [show (extract_key_facts "Trường có 428 sinh viên, thành lập năm 1976".data).isEmpty = false from by rw [hf]; rfl]
    simp only [Bool.false_eq_true, if_false, hf, hc]
    norm_num

/-- Claim C1 witness: the general statement applied at the scenario
inputs. -/
theorem claim_C1_witness :
    calculate_accuracy "Trường hiện có 428 sinh viên".data
        "Trường có 428 sinh viên, thành lập năm 1976".data =
      some ((matchedFacts "Trường hiện có 428 sinh viên".data
          "Trường có 428 sinh viên, thành lập năm 1976".data : ℚ) /
        ((extract_key_facts "Trường có 428 sinh viên, thành lập năm 1976".data).length : ℚ)) ∧
    ∀ q : ℚ, calculate_accuracy "Trường hiện có 428 sinh viên".data
        "Trường có 428 sinh viên, thành lập năm 1976".data = some q →
      0 ≤ q ∧ q ≤ 1 :=
  claim_C1.1 "Trường hiện có 428 sinh viên".data
    "Trường có 428 sinh viên, thành lập năm 1976".data (by decide)

/-- The lowering of an answer without a capital sigma is unchanged by what
follows: on such a prefix every character lowers context-freely. -/
theorem lowerStr_take (a s : List Char) (hns : 'Σ' ∉ a) :
    lowerStr a = (lowerStr (a ++ s)).take a.length := by
  apply List.ext_getElem?
  intro i
  by_cases hi : i < a.length
  · rw [List.getElem?_take, if_pos hi, lowerStr, lowerStr,
      List.getElem?_mapIdx, List.getElem?_mapIdx,
      List.getElem?_append_left hi]
    cases ha : a[i]? with
    | none => rfl
    | some c =>
      simp only [Option.map_some']
      have hc : ¬ (c = 'Σ') := by
        intro hh
        apply hns
        rw [← hh]
        exact List.mem_iff_getElem?.mpr ⟨i, ha⟩
      rw [if_neg hc, if_neg hc]
  · rw [List.getElem?_take, if_neg hi, lowerStr, List.getElem?_mapIdx,
      List.getElem?_eq_none (by omega)]
    rfl

/-- Claim C10 counterexample: the score is not monotone under extension of
the model answer.  On the ground truth `X AΣ` the single extracted fact is
`X AΣ`, whose lowering ends in the final sigma `ς`; the answer `X AΣ`
scores 1, but appending `x` puts a cased letter after the sigma, the
Final_Sigma context is lost, the answer now lowers to `x aσx`, and the
score drops to 0. -/
theorem claim_C10_counterexample :
    calculate_accuracy "X AΣ".data "X AΣ".data = some (1 : ℚ) ∧
    calculate_accuracy ("X AΣ".data ++ "x".data) "X AΣ".data =
      some (0 : ℚ) ∧
    ¬ ((1 : ℚ) ≤ (0 : ℚ)) := by
  have hf : extract_key_facts "X AΣ".data = ["X AΣ".data] := by decide
  have hc1 : List.countP
      (fun f => decide (lowerStr f <:+: lowerStr "X AΣ".data))
      ["X AΣ".data] = 1 := by decide
  have hc2 : List.countP
      (fun f => decide (lowerStr f <:+:
        lowerStr ("X AΣ".data ++ "x".data)))
      ["X AΣ".data] = 0 := by decide
  refine ⟨?_, ?_, by norm_num⟩
  · rw [calculate_accuracy]
    rw [show (extract_key_facts "X AΣ".data).isEmpty = false from by
      rw [hf]; rfl]
    simp only [Bool.false_eq_true, if_false, hf, hc1]
    norm_num
  · rw [calculate_accuracy]
    rw [show (extract_key_facts "X AΣ".data).isEmpty = false from by
      rw [hf]; rfl]
    simp only [Bool.false_eq_true, if_false, hf, hc2]
    norm_num

/-- Claim C10, amended: for a model answer containing no capital sigma —
in particular any ASCII or Vietnamese text — the score is monotone under
extension of the answer: such an answer lowers context-freely, its
lowering is a prefix of the extension's lowering, and appending text can
only add case-insensitive substring matches. -/
theorem claim_C10_amended (gt a s : List Char)
    (h : extract_key_facts gt ≠ []) (hns : 'Σ' ∉ a) :
    ∃ q1 q2 : ℚ, calculate_accuracy a gt = some q1 ∧
      calculate_accuracy (a ++ s) gt = some q2 ∧ q1 ≤ q2 := by
  have hne : ((extract_key_facts gt).isEmpty = true) = False := by
    simp [List.isEmpty_iff, h]
  refine ⟨(matchedFacts a gt : ℚ) / ((extract_key_facts gt).length : ℚ),
    (matchedFacts (a ++ s) gt : ℚ) / ((extract_key_facts gt).length : ℚ),
    ?_, ?_, ?_⟩
  · rw [calculate_accuracy]
    simp only [hne, if_false]
    rfl
  · rw [calculate_accuracy]
    simp only [hne, if_false]
    rfl
  have hlen : 0 < ((extract_key_facts gt).length : ℚ) := by
    have : 0 < (extract_key_facts gt).length := List.length_pos.mpr h
    exact_mod_cast this
  rw [matchedFacts, matchedFacts]
  have hmono : (extract_key_facts gt).countP
        (fun f => decide (lowerStr f <:+: lowerStr a)) ≤
      (extract_key_facts gt).countP
        (fun f => decide (lowerStr f <:+: lowerStr (a ++ s))) := by
    apply List.countP_mono_left
    intro f _ hf
    simp only [decide_eq_true_eq] at hf ⊢
    have hpre : lowerStr a <+: lowerStr (a ++ s) := by
      rw [lowerStr_take a s hns]
      exact List.take_prefix _ _
    exact hf.trans hpre.isInfix
  exact div_le_div_of_nonneg_right (by exact_mod_cast hmono) hlen.le

/-- Claim C10 amended witness: monotonicity applied at a concrete
sigma-free ground truth, answer and extension. -/
theorem claim_C10_amended_witness :
    ∃ q1 q2 : ℚ,
      calculate_accuracy "có 1976".data
          "Trường có 428 sinh viên, thành lập năm 1976".data = some q1 ∧
      calculate_accuracy ("có 1976".data ++ " và 428".data)
          "Trường có 428 sinh viên, thành lập năm 1976".data = some q2 ∧
      q1 ≤ q2 :=
  claim_C10_amended "Trường có 428 sinh viên, thành lập năm 1976".data
    "có 1976".data " và 428".data (by decide) (by decide)

/-- Claim C7: the retriever returns the texts of the top-k most similar
stored segments joined with a paragraph-break separator, in non-increasing
similarity order, without deduplication of repeated segment text; with k=5
against an index of 50 segments it returns exactly 5 results. -/
theorem claim_C7 :
    (∀ (ρ : Type) (sim : ρ → ℚ) (content : ρ → List Char)
        (store : List ρ) (k : Nat),
      retrieve_context sim content store k =
        List.intercalate ['\n', '\n'] ((similarity_search sim store k).map content) ∧
      (similarity_search sim store k).length = min k store.length ∧
      (similarity_search sim store k).Sorted (fun a b => sim b ≤ sim a) ∧
      ∃ rest : List ρ, (similarity_search sim store k ++ rest).Perm store ∧
        ∀ d ∈ similarity_search sim store k, ∀ r ∈ rest, sim r ≤ sim d) ∧
    (similarity_search (fun q : ℚ => q) (List.replicate 50 (0 : ℚ)) 5).length = 5 ∧
    retrieve_context (fun p : ℚ × List Char => p.1) (fun p => p.2)
      [((2 : ℚ), "ab".data), ((1 : ℚ), "ab".data), ((0 : ℚ), "cd".data)] 2 =
      "ab\n\nab".data := by
  have main : ∀ (ρ : Type) (sim : ρ → ℚ) (content : ρ → List Char)
      (store : List ρ) (k : Nat),
      retrieve_context sim content store k =
        List.intercalate ['\n', '\n'] ((similarity_search sim store k).map content) ∧
      (similarity_search sim store k).length = min k store.length ∧
      (similarity_search sim store k).Sorted (fun a b => sim b ≤ sim a) ∧
      ∃ rest : List ρ, (similarity_search sim store k ++ rest).Perm store ∧
        ∀ d ∈ similarity_search sim store k, ∀ r ∈ rest, sim r ≤ sim d := by
    intro ρ sim content store k
    haveI htot : IsTotal ρ (fun a b : ρ => sim b ≤ sim a) :=
      ⟨fun a b => le_total (sim b) (sim a)⟩
    haveI htr : IsTrans ρ (fun a b : ρ => sim b ≤ sim a) :=
      ⟨fun _ _ _ hab hbc => le_trans hbc hab⟩
    have hsorted := List.sorted_insertionSort (fun a b : ρ => sim b ≤ sim a) store
    have hperm := List.perm_insertionSort (fun a b : ρ => sim b ≤ sim a) store
    refine ⟨rfl, ?_, ?_, ?_⟩
    · rw [similarity_search, List.length_take, List.length_insertionSort]
    · exact (List.Pairwise.sublist (List.take_sublist _ _) hsorted)
    · refine ⟨(store.insertionSort (fun a b : ρ => sim b ≤ sim a)).drop k, ?_, ?_⟩
      · rw [similarity_search, List.take_append_drop]
        exact hperm
      · intro d hd r hr
        have hsplit :
            List.take k (store.insertionSort (fun a b : ρ => sim b ≤ sim a)) ++
              List.drop k (store.insertionSort (fun a b : ρ => sim b ≤ sim a)) =
              store.insertionSort (fun a b : ρ => sim b ≤ sim a) :=
          List.take_append_drop k _
        have hp : List.Pairwise (fun a b : ρ => sim b ≤ sim a)
            (List.take k (store.insertionSort (fun a b : ρ => sim b ≤ sim a)) ++
              List.drop k (store.insertionSort (fun a b : ρ => sim b ≤ sim a))) := by
          rw [hsplit]
          exact hsorted
        rw [similarity_search] at hd
        exact (List.pairwise_append.mp hp).2.2 d hd r hr
  refine ⟨main, ?_, by decide⟩
  have h := (main ℚ (fun q => q) (fun _ => []) (List.replicate 50 (0 : ℚ)) 5).2.1
  rw [h]
  simp

/-- Claim C4 counterexample: with `max_chars = 10` and `overlap_chars = 5`
on the text `ab` + paragraph break + twenty `x`, the first two segments are
the spans (0, 4) and (1, 3); they are adjacent, neither is the final
segment (there are more than two segments), and they overlap by
0 + 4 - 1 = 3 characters, not `overlap_chars = 5`. -/
theorem claim_C4_counterexample :
    (text_splitter ("ab\n\n".data ++ List.replicate 20 'x') 10 5)[0]? =
      some (0, 4) ∧
    (text_splitter ("ab\n\n".data ++ List.replicate 20 'x') 10 5)[1]? =
      some (1, 3) ∧
    2 < (text_splitter ("ab\n\n".data ++ List.replicate 20 'x') 10 5).length ∧
    0 + 4 - 1 ≠ 5 := by
  have hlen : ("ab\n\n".data ++ List.replicate 20 'x').length = 24 := by decide
  have hc0 : cutLen ((("ab\n\n".data ++ List.replicate 20 'x').drop 0).take 10)
      sepList 10 = 4 := by decide
  have hc1 : cutLen ((("ab\n\n".data ++ List.replicate 20 'x').drop 1).take 10)
      sepList 10 = 3 := by decide
  have h1 : text_splitter ("ab\n\n".data ++ List.replicate 20 'x') 10 5 =
      (0, 4) :: (1, 3) ::
        chunkSpansAux ("ab\n\n".data ++ List.replicate 20 'x') 10 5 2 := by
    rw [text_splitter, chunkSpansAux_step _ _ _ _ (by rw [hlen]; norm_num), hc0]
    rw [show max (0 + 4 - 5) (0 + 1) = 1 from by norm_num]
    rw [chunkSpansAux_step _ _ _ _ (by rw [hlen]; norm_num), hc1]
    rw [show max (1 + 3 - 5) (1 + 1) = 2 from by norm_num]
  rw [h1]
  obtain ⟨l, rest, heq⟩ :=
    chunkSpansAux_head ("ab\n\n".data ++ List.replicate 20 'x') 10 5 2
  rw [heq]
  simp

/-- Claim C4 (amended): for adjacent segments the next start is exactly
`min(overlap_chars, previous length - 1)` characters before the previous
end — in particular exactly `overlap_chars` whenever the previous segment
is longer than `overlap_chars` — and this holds for every adjacent pair,
the final one included. -/
theorem claim_C4_amended (text : List Char) (maxC ov : Nat) (hmax : 1 ≤ maxC) :
    List.Chain' (fun a b : Nat × Nat =>
      a.1 < b.1 ∧ b.1 ≤ a.1 + a.2 ∧
      a.1 + a.2 - b.1 = min ov (a.2 - 1) ∧
      (ov < a.2 → a.1 + a.2 - b.1 = ov)) (text_splitter text maxC ov) := by
  apply List.Chain'.imp ?_ (chunkSpansAux_chain text maxC ov hmax 0)
  intro a b hab
  obtain ⟨hb, ha⟩ := hab
  constructor
  · omega
  · omega

/-- Claim C4 witness: the amended invariant at the configured chunker
parameters on a concrete document. -/
theorem claim_C4_amended_witness :
    List.Chain' (fun a b : Nat × Nat =>
      a.1 < b.1 ∧ b.1 ≤ a.1 + a.2 ∧
      a.1 + a.2 - b.1 = min 200 (a.2 - 1) ∧
      (200 < a.2 → a.1 + a.2 - b.1 = 200))
      (text_splitter ("ab\n\n".data ++ List.replicate 20 'x') 1000 200) :=
  claim_C4_amended ("ab\n\n".data ++ List.replicate 20 'x') 1000 200
    (by norm_num)

/-- Claim C6: every character of the input text is covered by at least one
segment, and concatenating the segment texts with the overlapping portions
removed reconstructs the input exactly. -/
theorem claim_C6 (text : List Char) (maxC ov : Nat) (hmax : 1 ≤ maxC) :
    (∀ i, i < text.length →
      ∃ p ∈ text_splitter text maxC ov, p.1 ≤ i ∧ i < p.1 + p.2) ∧
    deoverlapConcat (chunk_pieces text maxC ov) = text := by
  constructor
  · intro i hi
    exact chunkSpansAux_cover text maxC ov hmax 0 i (Nat.zero_le i) hi
  · rw [deoverlapConcat, chunk_pieces, List.foldl_map]
    have h := chunkSpansAux_rebuild text maxC ov hmax 0 0 (Nat.le_refl 0)
      (Nat.zero_le _)
    rw [List.take_zero] at h
    exact h

/-- Claim C6 witness: coverage and reconstruction at the configured chunker
parameters on a concrete document. -/
theorem claim_C6_witness :
    (∀ i, i < ("ab\n\n".data ++ List.replicate 20 'x').length →
      ∃ p ∈ text_splitter ("ab\n\n".data ++ List.replicate 20 'x') 1000 200,
        p.1 ≤ i ∧ i < p.1 + p.2) ∧
    deoverlapConcat (chunk_pieces ("ab\n\n".data ++ List.replicate 20 'x') 1000 200) =
      "ab\n\n".data ++ List.replicate 20 'x' :=
  claim_C6 ("ab\n\n".data ++ List.replicate 20 'x') 1000 200 (by norm_num)

/-- The last element of a non-empty replicated list. -/
theorem getLast?_replicate_char (n : Nat) (a : Char) :
    (List.replicate n a).getLast? = if n = 0 then none else some a := by
  induction n with
  | zero => rfl
  | succ k ih =>
    rw [List.replicate_succ]
    cases k with
    | zero => rfl
    | succ k2 =>
      rw [List.replicate_succ, List.getLast?_cons_cons, ← List.replicate_succ, ih]
      simp

/-- A one-character separator ends at the last position exactly when it is
the last character. -/
theorem singleton_isSuffixOf_iff (c : Char) (l : List Char) :
    [c].isSuffixOf l ↔ l.getLast? = some c := by
  rw [List.isSuffixOf_iff_suffix]
  constructor
  · rintro ⟨t, rfl⟩
    exact List.getLast?_concat _
  · intro h
    have hne : l ≠ [] := by
      intro hl
      rw [hl] at h
      exact Option.noConfusion h
    have hd := List.dropLast_append_getLast hne
    rw [List.getLast?_eq_getLast l hne] at h
    injection h with h2
    rw [h2] at hd
    exact ⟨l.dropLast, hd⟩

/-- Claim C5 (amended): on a 2500-character text in which none of the
configured separators occurs — no paragraph break, line break,
sentence-terminal separator, or space — the configured chunker hard-cuts
into exactly three segments of lengths at most 1000, the second starting at
offset 800 and the third at offset 1600. -/
theorem claim_C5_amended (text : List Char) (h25 : text.length = 2500)
    (hnl : '\n' ∉ text) (hsp : ' ' ∉ text) :
    text_splitter text 1000 200 = [(0, 1000), (800, 1000), (1600, 900)] ∧
    ∀ p ∈ text_splitter text 1000 200, p.2 ≤ 1000 := by
  have hw : ∀ s : Nat, '\n' ∉ (text.drop s).take 1000 ∧
      ' ' ∉ (text.drop s).take 1000 := by
    intro s
    constructor <;> intro hc
    · exact hnl (List.drop_subset s text (List.take_subset _ _ hc))
    · exact hsp (List.drop_subset s text (List.take_subset _ _ hc))
  have hcut : ∀ s : Nat, cutLen ((text.drop s).take 1000) sepList 1000 = 1000 :=
    fun s => cutLen_eq_hard _ _ (hw s).1 (hw s).2
  have h1 : text_splitter text 1000 200 = [(0, 1000), (800, 1000), (1600, 900)] := by
    rw [text_splitter, chunkSpansAux_step _ _ _ _ (by omega), hcut 0,
      show max (0 + 1000 - 200) (0 + 1) = 800 from by norm_num,
      chunkSpansAux_step _ _ _ _ (by omega), hcut 800,
      show max (800 + 1000 - 200) (800 + 1) = 1600 from by norm_num,
      chunkSpansAux_final _ _ _ _ (by omega), h25]
  refine ⟨h1, ?_⟩
  intro p hp
  rw [h1] at hp
  simp only [List.mem_cons, List.not_mem_nil, or_false] at hp
  rcases hp with rfl | rfl | rfl <;> norm_num

/-- Claim C5 witness: the amended scenario on a concrete separator-free
2500-character text. -/
theorem claim_C5_amended_witness :
    (List.replicate 2500 'a').length = 2500 ∧
    '\n' ∉ List.replicate 2500 'a' ∧ ' ' ∉ List.replicate 2500 'a' ∧
    text_splitter (List.replicate 2500 'a') 1000 200 =
      [(0, 1000), (800, 1000), (1600, 900)] := by
  have hm : ∀ c : Char, c ≠ 'a' → c ∉ List.replicate 2500 'a' := by
    intro c hc
    simp only [List.mem_replicate]
    push_neg
    intro _
    exact hc
  refine ⟨by rw [List.length_replicate], hm '\n' (by decide), hm ' ' (by decide), ?_⟩
  exact (claim_C5_amended (List.replicate 2500 'a') (by rw [List.length_replicate])
    (hm '\n' (by decide)) (hm ' ' (by decide))).1

/-- Claim C5 counterexample: the text of 2500 characters consisting of 500
letters, one space and 1999 further letters contains no paragraph break, no
line break and no sentence-terminal separator, yet the configured chunker
cuts its first segment at the space (offset 501), so the second segment
starts at offset 301, not 800. -/
theorem claim_C5_counterexample :
    (List.replicate 500 'a' ++ ' ' :: List.replicate 1999 'a').length = 2500 ∧
    '\n' ∉ List.replicate 500 'a' ++ ' ' :: List.replicate 1999 'a' ∧
    '.' ∉ List.replicate 500 'a' ++ ' ' :: List.replicate 1999 'a' ∧
    ((text_splitter (List.replicate 500 'a' ++ ' ' :: List.replicate 1999 'a')
        1000 200)[1]?).map Prod.fst = some 301 ∧
    (301 : Nat) ≠ 800 := by
  have hL : (List.replicate 500 'a' ++ ' ' :: List.replicate 1999 'a').length = 2500 := by
    simp only [List.length_append, List.length_cons, List.length_replicate]
  have hwin : ((List.replicate 500 'a' ++ ' ' :: List.replicate 1999 'a').drop 0).take 1000 =
      List.replicate 500 'a' ++ ' ' :: List.replicate 499 'a' := by
    rw [List.drop_zero, List.take_append_eq_append_take,
      List.take_of_length_le (by rw [List.length_replicate]; norm_num),
      List.length_replicate,
      show (1000 : Nat) - 500 = 499 + 1 from by norm_num,
      List.take_succ_cons, List.take_replicate,
      show min 499 1999 = 499 from by norm_num]
  have h501 : (List.replicate 500 'a' ++ ' ' :: List.replicate 499 'a').take 501 =
      List.replicate 500 'a' ++ [' '] := by
    rw [List.take_append_eq_append_take,
      List.take_of_length_le (by rw [List.length_replicate]; norm_num),
      List.length_replicate,
      show (501 : Nat) - 500 = 0 + 1 from by norm_num,
      List.take_succ_cons, List.take_zero]
  have hlast : ∀ e2 : Nat, 501 < e2 → e2 ≤ 1000 →
      ((List.replicate 500 'a' ++ ' ' :: List.replicate 499 'a').take e2).getLast? =
        some 'a' := by
    intro e2 h1 h2
    rw [List.take_append_eq_append_take,
      List.take_of_length_le (by rw [List.length_replicate]; omega),
      List.length_replicate]
    have he : e2 - 500 = (e2 - 501) + 1 := by omega
    rw [he, List.take_succ_cons, List.take_replicate,
      show min (e2 - 501) 499 = e2 - 501 from by omega]
    rw [List.getLast?_append,
      show e2 - 501 = (e2 - 502) + 1 from by omega, List.replicate_succ,
      List.getLast?_cons_cons, ← List.replicate_succ, getLast?_replicate_char,
      if_neg (by omega)]
    rfl
  have hwl : (List.replicate 500 'a' ++ ' ' :: List.replicate 499 'a').length = 1000 := by
    simp only [List.length_append, List.length_cons, List.length_replicate]
  have hsep : lastSepEnd (List.replicate 500 'a' ++ ' ' :: List.replicate 499 'a')
      [' '] = some 501 := by
    apply lastSepEnd_eq_some
    · rw [hwl]
      norm_num
    · rw [singleton_isSuffixOf_iff, h501, List.getLast?_concat]
    · intro e2 hgt hle
      rw [singleton_isSuffixOf_iff]
      rw [hwl] at hle
      rw [hlast e2 hgt hle]
      decide
  have hnotin : ∀ c : Char, c ≠ 'a' → c ≠ ' ' →
      c ∉ List.replicate 500 'a' ++ ' ' :: List.replicate 499 'a' := by
    intro c hca hcs
    simp only [List.mem_append, List.mem_cons, List.mem_replicate]
    push_neg
    exact ⟨fun _ => hca, hcs, fun _ => hca⟩
  have hcut : cutLen (List.replicate 500 'a' ++ ' ' :: List.replicate 499 'a')
      sepList 1000 = 501 := by
    rw [sepList, cutLen,
      lastSepEnd_eq_none _ _ '\n' (by decide) (hnotin '\n' (by decide) (by decide)),
      cutLen,
      lastSepEnd_eq_none _ _ '\n' (by decide) (hnotin '\n' (by decide) (by decide)),
      cutLen,
      lastSepEnd_eq_none _ _ '.' (by decide) (hnotin '.' (by decide) (by decide)),
      cutLen, hsep]
  have hnotin2 : ∀ c : Char, c ≠ 'a' → c ≠ ' ' →
      c ∉ List.replicate 500 'a' ++ ' ' :: List.replicate 1999 'a' := by
    intro c hca hcs
    simp only [List.mem_append, List.mem_cons, List.mem_replicate]
    push_neg
    exact ⟨fun _ => hca, hcs, fun _ => hca⟩
  refine ⟨hL, hnotin2 '\n' (by decide) (by decide),
    hnotin2 '.' (by decide) (by decide), ?_, by norm_num⟩
  rw [text_splitter, chunkSpansAux_step _ _ _ _ (by rw [hL]; norm_num),
    hwin, hcut,
    show max (0 + 501 - 200) (0 + 1) = 301 from by norm_num]
  obtain ⟨l, rest, heq⟩ := chunkSpansAux_head
    (List.replicate 500 'a' ++ ' ' :: List.replicate 1999 'a') 1000 200 301
  rw [heq]
  simp

/-! ### Word-rejoining lemmas -/

/-- A Vietnamese lowercase letter is not a line break. -/
theorem vietLower_ne_nl (c : Char) (h : vietLower c = true) : c ≠ '\n' := by
  intro hc
  subst hc
  exact absurd h (by decide)

/-- A Vietnamese lowercase letter is not a space. -/
theorem vietLower_ne_sp (c : Char) (h : vietLower c = true) : c ≠ ' ' := by
  intro hc
  subst hc
  exact absurd h (by decide)

/-- A text has no letter, line-break, letter occurrence. -/
def noVNV (l : List Char) : Prop :=
  ∀ c1 c2 : Char, vietLower c1 = true → vietLower c2 = true →
    ¬ ([c1, '\n', c2] <:+: l)

/-- The property transfers to any infix, in particular to suffixes,
prefixes and the stripped text. -/
theorem noVNV_mono (l l' : List Char) (h : l' <:+: l) (hn : noVNV l) :
    noVNV l' :=
  fun c1 c2 h1 h2 hin => hn c1 c2 h1 h2 (hin.trans h)

/-- A three-character infix gives three consecutive positions. -/
theorem infix_triple_positions (a b c : Char) (l : List Char)
    (h : [a, b, c] <:+: l) :
    ∃ i, l[i]? = some a ∧ l[i + 1]? = some b ∧ l[i + 2]? = some c := by
  obtain ⟨s, t, heq⟩ := h
  have heq2 : s ++ a :: b :: c :: t = l := by
    rw [← heq]
    simp
  refine ⟨s.length, ?_, ?_, ?_⟩
  · rw [← heq2, List.getElem?_append_right (le_refl _), Nat.sub_self]
    simp
  · rw [← heq2, List.getElem?_append_right (by omega),
      show s.length + 1 - s.length = 1 from by omega]
    simp
  · rw [← heq2, List.getElem?_append_right (by omega),
      show s.length + 2 - s.length = 2 from by omega]
    simp

/-- In the output of pass 5, every line break has a line break next to it:
an isolated newline is turned into a space, and the rule's lookarounds read
the original neighbours, so surviving newlines keep a surviving newline
neighbour. -/
theorem pass5_nl (l : List Char) (i : Nat) (h : (pass5 l)[i]? = some '\n') :
    (i ≠ 0 ∧ (pass5 l)[i - 1]? = some '\n') ∨ (pass5 l)[i + 1]? = some '\n' := by
  rw [pass5, List.getElem?_mapIdx] at h
  match hl : l[i]? with
  | none =>
    rw [hl] at h
    exact absurd h (by simp)
  | some c =>
    rw [hl] at h
    simp only [Option.map_some'] at h
    by_cases hcond : (c = '\n' ∧ ¬ (i ≠ 0 ∧ l[i - 1]? = some '\n') ∧
        l[i + 1]? ≠ some '\n')
    · rw [if_pos hcond] at h
      injection h with h
      exact absurd h (by decide)
    · rw [if_neg hcond] at h
      injection h with h
      subst h
      rw [not_and, not_and] at hcond
      have hcond2 : (i ≠ 0 ∧ l[i - 1]? = some '\n') ∨ l[i + 1]? = some '\n' := by
        by_cases hp : i ≠ 0 ∧ l[i - 1]? = some '\n'
        · exact Or.inl hp
        · have := hcond rfl hp
          push_neg at this
          exact Or.inr this
      rcases hcond2 with ⟨hi0, hprev⟩ | hnext
      · left
        refine ⟨hi0, ?_⟩
        rw [pass5, List.getElem?_mapIdx, hprev]
        simp only [Option.map_some']
        rw [if_neg]
        intro hc
        have hi1 : i - 1 + 1 = i := by omega
        rw [hi1] at hc
        exact hc.2.2 hl
      · right
        rw [pass5, List.getElem?_mapIdx, hnext]
        simp only [Option.map_some']
        rw [if_neg]
        intro hc
        apply hc.2.1
        exact ⟨by omega, by rw [show i + 1 - 1 = i from by omega]; exact hl⟩

/-- The output of pass 5 contains no letter, line-break, letter
occurrence. -/
theorem pass5_noVNV (l : List Char) : noVNV (pass5 l) := by
  intro c1 c2 h1 h2 hin
  obtain ⟨i, hi0, hi1, hi2⟩ := infix_triple_positions _ _ _ _ hin
  rcases pass5_nl l (i + 1) hi1 with ⟨_, hprev⟩ | hnext
  · rw [show i + 1 - 1 = i from by omega, hi0] at hprev
    injection hprev with hprev
    exact vietLower_ne_nl c1 h1 hprev
  · rw [show i + 1 + 1 = i + 2 from by omega, hi2] at hnext
    injection hnext with hnext
    exact vietLower_ne_nl c2 h2 hnext

/-- Pass 6 preserves the absence of letter, line-break, letter occurrences:
collapsing space runs keeps at least one space between a letter and a line
break. -/
theorem pass6_noVNV (l : List Char) : noVNV l → noVNV (pass6 l) := by
  induction l using pass6.induct with
  | case1 =>
    intro _ c1 c2 h1 h2 hin
    rw [pass6] at hin
    simp at hin
  | case2 rest ih =>
    intro h c1 c2 h1 h2 hin
    rw [pass6, if_pos rfl] at hin
    rw [List.infix_cons_iff] at hin
    rcases hin with hpre | htail
    · rw [List.cons_prefix_cons] at hpre
      exact vietLower_ne_sp c1 h1 hpre.1
    · have hsub : noVNV (rest.dropWhile isSp) :=
        noVNV_mono _ _ ((List.dropWhile_suffix isSp).trans
          (List.suffix_cons ' ' rest)).isInfix h
      exact ih hsub c1 c2 h1 h2 htail
  | case3 c rest hc ih =>
    intro h c1 c2 h1 h2 hin
    rw [pass6, if_neg hc] at hin
    rw [List.infix_cons_iff] at hin
    rcases hin with hpre | htail
    · rw [List.cons_prefix_cons] at hpre
      obtain ⟨hc1, hpre2⟩ := hpre
      cases rest with
      | nil =>
        rw [pass6] at hpre2
        simp at hpre2
      | cons d rest2 =>
        by_cases hd : d = ' '
        · rw [pass6, if_pos hd] at hpre2
          rw [List.cons_prefix_cons] at hpre2
          exact absurd hpre2.1 (by decide)
        · rw [pass6, if_neg hd] at hpre2
          rw [List.cons_prefix_cons] at hpre2
          obtain ⟨hnd, hpre3⟩ := hpre2
          cases rest2 with
          | nil =>
            rw [pass6] at hpre3
            simp at hpre3
          | cons e rest3 =>
            by_cases he : e = ' '
            · rw [pass6, if_pos he] at hpre3
              rw [List.cons_prefix_cons] at hpre3
              exact vietLower_ne_sp c2 h2 hpre3.1
            · rw [pass6, if_neg he] at hpre3
              rw [List.cons_prefix_cons] at hpre3
              apply h c1 c2 h1 h2
              refine ⟨[], rest3, ?_⟩
              rw [hc1, hnd, hpre3.1]
              simp
    · exact ih (noVNV_mono _ _ (List.suffix_cons c rest).isInfix h)
        c1 c2 h1 h2 htail

/-- The stripped text is an infix of the unstripped text. -/
theorem pyStrip_isInfix (l : List Char) : pyStrip l <:+: l := by
  rw [pyStrip]
  have h1 : l.dropWhile isPyWS <:+ l := List.dropWhile_suffix _
  have h2 : (l.dropWhile isPyWS).reverse.dropWhile isPyWS <:+
      (l.dropWhile isPyWS).reverse := List.dropWhile_suffix _
  have h3 : ((l.dropWhile isPyWS).reverse.dropWhile isPyWS).reverse <+:
      l.dropWhile isPyWS := by
    rw [← List.reverse_suffix]
    simpa using h2
  exact h3.isInfix.trans h1.isInfix

/-- Claim C8 counterexample: on the input `a`, break, `b`, break, `c` the
rejoin pass replaces only the first break — the match consumes the letter
`b`, so the occurrence `b`, break, `c` is skipped and its break survives
the pass, contradicting the claim that every such break is replaced. -/
theorem claim_C8_counterexample :
    vietLower 'b' = true ∧ vietLower 'c' = true ∧
    pass4 "a\nb\nc".data = "a b\nc".data ∧
    ['b', '\n', 'c'] <:+: pass4 "a\nb\nc".data := by
  have h : pass4 "a\nb\nc".data = "a b\nc".data := by
    simp [pass4, vietLower]
  refine ⟨by decide, by decide, h, ?_⟩
  rw [h]
  decide

/-- Claim C8 (amended): the rejoin pass replaces the breaks of the
non-overlapping matches found scanning left to right; a break whose leading
letter was consumed by the previous match is skipped, but the subsequent
single-newline pass turns it into a space as well, so the full normalizer
output contains no letter, line-break, letter occurrence at all. -/
theorem claim_C8_amended (text : List Char) (c1 c2 : Char)
    (h1 : vietLower c1 = true) (h2 : vietLower c2 = true) :
    ¬ ([c1, '\n', c2] <:+: clean_text text) := by
  intro hin
  have h5 := pass5_noVNV (pass4 (pass3 (pass2 (pass1 text))))
  have h6 := pass6_noVNV _ h5
  have hstrip := noVNV_mono _ _ (pyStrip_isInfix _) h6
  exact hstrip c1 c2 h1 h2 hin

/-- Claim C8 witness: the amended statement applied at the counterexample
input and letters. -/
theorem claim_C8_amended_witness :
    vietLower 'b' = true ∧ vietLower 'c' = true ∧
    ¬ (['b', '\n', 'c'] <:+: clean_text "a\nb\nc".data) :=
  ⟨by decide, by decide,
    claim_C8_amended "a\nb\nc".data 'b' 'c' (by decide) (by decide)⟩

/-! ### Idempotence of the normalizer

`clean_text` output satisfies a family of structural invariants; each pass
is the identity on texts satisfying them, so a second application changes
nothing. -/

/-- No tab character (established by pass 1). -/
def noTab (y : List Char) : Prop := '\t' ∉ y

/-- No two adjacent spaces (established by pass 6). -/
def noDSp (y : List Char) : Prop := ¬ ([' ', ' '] <:+: y)

/-- No space immediately next to a line break (established by pass 3). -/
def noSpNl (y : List Char) : Prop :=
  ¬ ([' ', '\n'] <:+: y) ∧ ¬ (['\n', ' '] <:+: y)

/-- Every line break has a line break next to it (established by
pass 5). -/
def NoIso (y : List Char) : Prop :=
  ∀ s t : List Char, y = s ++ '\n' :: t →
    s.getLast? = some '\n' ∨ t.head? = some '\n'

/-- Two line breaks with only whitespace between them are adjacent: the
separating block always holds a non-whitespace character (established by
pass 2). -/
def PairSep (y : List Char) : Prop :=
  ∀ s w t : List Char, y = s ++ '\n' :: (w ++ '\n' :: t) → w ≠ [] →
    ∃ c ∈ w, isPyWS c = false

/-- The text neither starts nor ends with whitespace (established by
pass 7). -/
def noWsEnds (y : List Char) : Prop :=
  (∀ c, y.head? = some c → isPyWS c = false) ∧
  (∀ c, y.getLast? = some c → isPyWS c = false)

/-- Avoided infixes transfer to infixes. -/
theorem notInfix_mono (p l l' : List Char) (h : ¬ (p <:+: l))
    (hl : l' <:+: l) : ¬ (p <:+: l') :=
  fun hp => h (hp.trans hl)

/-- Pass 1 is the identity on tab-free texts without double spaces. -/
theorem pass1_id (y : List Char) : noTab y → noDSp y → pass1 y = y := by
  induction y using pass1.induct with
  | case1 =>
    intro _ _
    rw [pass1]
  | case2 c rest hc ih =>
    intro h1 h2
    have hcs : c = ' ' := by
      rw [isHWS] at hc
      rcases Bool.or_eq_true_iff.mp hc with h | h
      · exact decide_eq_true_eq.mp h
      · exact absurd (show '\t' ∈ c :: rest by
          rw [decide_eq_true_eq.mp h]
          exact List.mem_cons_self _ _) h1
    have hdw : rest.dropWhile isHWS = rest := by
      cases rest with
      | nil => rfl
      | cons d rest2 =>
        rw [List.dropWhile_cons, if_neg]
        intro hd
        rw [isHWS] at hd
        rcases Bool.or_eq_true_iff.mp hd with h | h
        · apply h2
          rw [hcs, decide_eq_true_eq.mp h]
          exact ⟨[], rest2, rfl⟩
        · apply h1
          rw [decide_eq_true_eq.mp h]
          exact List.mem_cons_of_mem c (List.mem_cons_self _ _)
    rw [hdw] at ih
    rw [pass1, if_pos hc, hdw, hcs,
      ih (fun hm => h1 (List.mem_cons_of_mem c hm))
        (notInfix_mono _ _ _ h2 (List.suffix_cons c rest).isInfix)]
  | case3 c rest hc ih =>
    intro h1 h2
    rw [pass1, if_neg hc, ih
      (fun hm => h1 (List.mem_cons_of_mem c hm))
      (notInfix_mono _ _ _ h2 (List.suffix_cons c rest).isInfix)]

/-- Pass 6 is the identity on texts without double spaces. -/
theorem pass6_id (y : List Char) : noDSp y → pass6 y = y := by
  induction y using pass6.induct with
  | case1 =>
    intro _
    rw [pass6]
  | case2 rest ih =>
    intro h2
    have hdw : rest.dropWhile isSp = rest := by
      cases rest with
      | nil => rfl
      | cons d rest2 =>
        rw [List.dropWhile_cons, if_neg]
        intro hd
        apply h2
        rw [isSp] at hd
        rw [decide_eq_true_eq.mp hd]
        exact ⟨[], rest2, rfl⟩
    rw [hdw] at ih
    rw [pass6, if_pos rfl, hdw,
      ih (notInfix_mono _ _ _ h2 (List.suffix_cons ' ' rest).isInfix)]
  | case3 c rest hc ih =>
    intro h2
    rw [pass6, if_neg hc,
      ih (notInfix_mono _ _ _ h2 (List.suffix_cons c rest).isInfix)]

/-- Pass 3 is the identity on texts without double spaces and without
spaces adjacent to line breaks. -/
theorem pass3_id (y : List Char) : noDSp y → noSpNl y → pass3 y = y := by
  induction y using pass3.induct with
  | case1 =>
    intro _ _
    rw [pass3]
  | case2 rest ih =>
    intro h2 h3
    have hdw : rest.dropWhile isSp = rest := by
      cases rest with
      | nil => rfl
      | cons d rest2 =>
        rw [List.dropWhile_cons, if_neg]
        intro hd
        rw [isSp, decide_eq_true_eq] at hd
        apply h3.2
        rw [hd]
        exact ⟨[], rest2, rfl⟩
    rw [hdw] at ih
    rw [pass3, if_pos rfl, hdw,
      ih (notInfix_mono _ _ _ h2 (List.suffix_cons '\n' rest).isInfix)
        ⟨notInfix_mono _ _ _ h3.1 (List.suffix_cons '\n' rest).isInfix,
         notInfix_mono _ _ _ h3.2 (List.suffix_cons '\n' rest).isInfix⟩]
  | case3 rest rest2 heq hne ih =>
    intro h2 h3
    exfalso
    cases rest with
    | nil => exact List.noConfusion heq
    | cons d rest3 =>
      by_cases hd : d = ' '
      · apply h2
        rw [hd]
        exact ⟨[], rest3, rfl⟩
      · rw [List.dropWhile_cons,
          if_neg (by rw [isSp, decide_eq_true_eq]; exact hd)] at heq
        injection heq with heqd heqr
        apply h3.1
        rw [heqd]
        exact ⟨[], rest3, rfl⟩
  | case4 rest hne hno ih =>
    intro h2 h3
    have hdw : rest.dropWhile isSp = rest := by
      cases rest with
      | nil => rfl
      | cons d rest2 =>
        rw [List.dropWhile_cons, if_neg]
        intro hd
        rw [isSp, decide_eq_true_eq] at hd
        apply h2
        rw [hd]
        exact ⟨[], rest2, rfl⟩
    have htw : rest.takeWhile isSp = [] := by
      cases rest with
      | nil => rfl
      | cons d rest2 =>
        rw [List.takeWhile_cons, if_neg]
        intro hd
        rw [isSp, decide_eq_true_eq] at hd
        apply h2
        rw [hd]
        exact ⟨[], rest2, rfl⟩
    rw [hdw] at ih
    rw [pass3, if_neg hne, if_pos rfl]
    split
    · exfalso
      apply hno
      assumption
    · rw [htw, hdw,
        ih (notInfix_mono _ _ _ h2 (List.suffix_cons ' ' rest).isInfix)
          ⟨notInfix_mono _ _ _ h3.1 (List.suffix_cons ' ' rest).isInfix,
           notInfix_mono _ _ _ h3.2 (List.suffix_cons ' ' rest).isInfix⟩]
      rfl
  | case5 c rest hc1 hc2 ih =>
    intro h2 h3
    rw [pass3, if_neg hc1, if_neg hc2,
      ih (notInfix_mono _ _ _ h2 (List.suffix_cons c rest).isInfix)
        ⟨notInfix_mono _ _ _ h3.1 (List.suffix_cons c rest).isInfix,
         notInfix_mono _ _ _ h3.2 (List.suffix_cons c rest).isInfix⟩]

/-- Pass 4 is the identity on texts without letter, line-break, letter
occurrences. -/
theorem pass4_id (y : List Char) : noVNV y → pass4 y = y := by
  induction y using pass4.induct with
  | case1 a b rest hab ih =>
    intro h
    exfalso
    have hab2 := Bool.and_eq_true_iff.mp hab
    exact h a b hab2.1 hab2.2 ⟨[], rest, rfl⟩
  | case2 a b rest hab ih =>
    intro h
    rw [pass4, if_neg hab,
      ih (noVNV_mono _ _ (List.suffix_cons a ('\n' :: b :: rest)).isInfix h)]
  | case3 a rest hnm ih =>
    intro h
    have hstep : pass4 (a :: rest) = a :: pass4 rest := by
      rw [pass4.eq_def]
      split
      · rename_i b rest2 heq
        injection heq with h1 h2
        exact absurd h2 (fun hh => hnm b rest2 hh)
      · rename_i a2 rest2 heq
        injection heq with h1 h2
        rw [h1, h2]
      · rename_i heq
        exact List.noConfusion heq
    rw [hstep, ih (noVNV_mono _ _ (List.suffix_cons a rest).isInfix h)]
  | case4 =>
    intro _
    rw [pass4]

/-- The last element of a take is the element before the cut. -/
theorem getLast?_take_eq (y : List Char) (i : Nat) (h0 : i ≠ 0)
    (hi : i ≤ y.length) : (y.take i).getLast? = y[i - 1]? := by
  rw [List.getLast?_eq_getElem?, List.length_take, Nat.min_eq_left hi,
    List.getElem?_take, if_pos (by omega)]

/-- Pass 5 is the identity on texts without isolated line breaks. -/
theorem pass5_id (y : List Char) : NoIso y → pass5 y = y := by
  intro h
  apply List.ext_getElem?
  intro i
  rw [pass5, List.getElem?_mapIdx]
  match hy : y[i]? with
  | none => rfl
  | some c =>
    simp only [Option.map_some']
    by_cases hc : c = '\n'
    · subst hc
      obtain ⟨hi, hval⟩ := List.getElem?_eq_some.mp hy
      have hdecomp : y = y.take i ++ '\n' :: y.drop (i + 1) := by
        conv_lhs => rw [← List.take_append_drop i y]
        rw [List.drop_eq_getElem_cons hi, hval]
      have hne := h _ _ hdecomp
      rw [if_neg]
      intro hcond
      rcases hne with hl | hr
      · have h0 : i ≠ 0 := by
          intro h0
          subst h0
          rw [List.take_zero] at hl
          exact Option.noConfusion hl
        rw [getLast?_take_eq y i h0 (le_of_lt hi)] at hl
        exact hcond.2.1 ⟨h0, hl⟩
      · rw [List.head?_drop] at hr
        exact hcond.2.2 hr
    · rw [if_neg (fun hcond => hc hcond.1)]

/-- Dropping a prefix does nothing when the head does not satisfy the
predicate. -/
theorem dropWhile_eq_self_of_head (p : Char → Bool) (l : List Char)
    (h : ∀ c, l.head? = some c → p c = false) : l.dropWhile p = l := by
  cases l with
  | nil => rfl
  | cons c rest =>
    rw [List.dropWhile_cons, if_neg]
    rw [h c rfl]
    exact Bool.false_ne_true

/-- Pass 7 is the identity on texts with no whitespace at either end. -/
theorem pyStrip_id (y : List Char) : noWsEnds y → pyStrip y = y := by
  intro h
  rw [pyStrip, dropWhile_eq_self_of_head isPyWS y h.1,
    dropWhile_eq_self_of_head isPyWS y.reverse
      (fun c hc => h.2 c (by rwa [List.head?_reverse] at hc)),
    List.reverse_reverse]

/-- Pair separation transfers to infixes. -/
theorem PairSep_mono (y y' : List Char) (h : y' <:+: y) (hp : PairSep y) :
    PairSep y' := by
  intro s w t heq hw
  obtain ⟨a, b, hab⟩ := h
  apply hp (a ++ s) w (t ++ b) ?_ hw
  rw [← hab, heq]
  simp [List.append_assoc]

/-- A hit of `lastNLIdx` is a newline inside the whitespace prefix. -/
theorem lastNLIdx_mem (l : List Char) (k : Nat) (h : lastNLIdx l = some k) :
    k < (l.takeWhile isPyWS).length ∧
      (l.takeWhile isPyWS)[k]? = some '\n' := by
  rw [lastNLIdx] at h
  have hmem := List.mem_of_mem_getLast? h
  rw [List.mem_filter, List.mem_range] at hmem
  exact ⟨hmem.1, eq_of_beq hmem.2⟩

/-- Pass 2 is the identity on texts whose whitespace-separated line breaks
are all adjacent. -/
theorem pass2_id (y : List Char) : PairSep y → pass2 y = y := by
  induction y using pass2.induct with
  | case1 =>
    intro _
    rw [pass2]
  | case2 rest k heq ih =>
    intro hp
    obtain ⟨hk, hkval⟩ := lastNLIdx_mem rest k heq
    obtain ⟨q, hq⟩ := List.takeWhile_prefix (l := rest) isPyWS
    have hrk : rest[k]? = some '\n' := by
      rw [← hq, List.getElem?_append_left hk, hkval]
    have hklen : k < rest.length := by
      have := (List.getElem?_eq_some.mp hrk).1
      exact this
    have hrdec : rest = rest.take k ++ '\n' :: rest.drop (k + 1) := by
      conv_lhs => rw [← List.take_append_drop k rest]
      rw [List.drop_eq_getElem_cons hklen,
        (List.getElem?_eq_some.mp hrk).2]
    have hk0 : k = 0 := by
      by_contra hk0
      have hwlen : (rest.take k).length = k := by
        rw [List.length_take]
        omega
      have hwws : ∀ c ∈ rest.take k, isPyWS c = true := by
        intro c hc
        have htk : rest.take k = (rest.takeWhile isPyWS).take k := by
          conv_lhs => rw [← hq]
          rw [List.take_append_eq_append_take,
            show k - (rest.takeWhile isPyWS).length = 0 from by omega,
            List.take_zero, List.append_nil]
        rw [htk] at hc
        exact List.mem_takeWhile_imp (List.take_subset k _ hc)
      obtain ⟨c, hc, hcws⟩ := hp [] (rest.take k) (rest.drop (k + 1))
        (by rw [← hrdec]; rfl)
        (by intro hnil; rw [hnil] at hwlen; simp at hwlen; omega)
      rw [hwws c hc] at hcws
      exact Bool.noConfusion hcws
    subst hk0
    have hps : PairSep (rest.drop (0 + 1)) :=
      PairSep_mono _ _ ((List.drop_suffix (0 + 1) rest).trans
        (List.suffix_cons '\n' rest)).isInfix hp
    have hr0 : rest = '\n' :: rest.drop (0 + 1) := by
      conv_lhs => rw [hrdec]
      rw [List.take_zero, List.nil_append]
    rw [pass2, if_pos rfl, heq]
    show '\n' :: '\n' :: pass2 (rest.drop (0 + 1)) = '\n' :: rest
    rw [ih hps]
    conv_rhs => rw [hr0]
  | case3 rest heq ih =>
    intro hp
    rw [pass2, if_pos rfl, heq,
      ih (PairSep_mono _ _ (List.suffix_cons '\n' rest).isInfix hp)]
  | case4 c rest hc ih =>
    intro hp
    rw [pass2, if_neg hc,
      ih (PairSep_mono _ _ (List.suffix_cons c rest).isInfix hp)]

/-- The head of a `dropWhile` fails the predicate. -/
theorem head?_dropWhile_not (p : Char → Bool) (l : List Char) (c : Char)
    (h : (l.dropWhile p).head? = some c) : p c = false := by
  induction l with
  | nil => exact absurd h (by simp)
  | cons d rest ih =>
    rw [List.dropWhile_cons] at h
    by_cases hd : p d
    · rw [if_pos hd] at h
      exact ih h
    · rw [if_neg hd] at h
      injection h with h
      subst h
      exact Bool.eq_false_iff.mpr hd

/-- A two-character infix of a cons either starts at the head or lies in
the tail. -/
theorem pair_cons (a b c : Char) (l : List Char) :
    [a, b] <:+: c :: l ↔ (c = a ∧ l.head? = some b) ∨ [a, b] <:+: l := by
  constructor
  · intro h
    rw [List.infix_cons_iff] at h
    rcases h with hpre | h
    · left
      rw [List.cons_prefix_cons] at hpre
      obtain ⟨h1, h2⟩ := hpre
      refine ⟨h1.symm, ?_⟩
      cases l with
      | nil => simp at h2
      | cons d m =>
        rw [List.cons_prefix_cons] at h2
        rw [h2.1]
        rfl
    · right
      exact h
  · rintro (⟨h1, h2⟩ | h)
    · cases l with
      | nil => exact absurd h2 (by simp)
      | cons d m =>
        injection h2 with h2
        refine ⟨[], m, ?_⟩
        rw [h1, h2]
        rfl
    · exact h.trans (List.suffix_cons c l).isInfix

/-- A two-character infix of an all-space run followed by a block is two
spaces, a space at the junction, or an infix of the block. -/
theorem pair_append_sp (a b : Char) (run X : List Char)
    (hrun : ∀ c ∈ run, c = ' ') (h : [a, b] <:+: run ++ X) :
    (a = ' ' ∧ b = ' ') ∨ (a = ' ' ∧ X.head? = some b) ∨ [a, b] <:+: X := by
  induction run with
  | nil =>
    rw [List.nil_append] at h
    exact Or.inr (Or.inr h)
  | cons d run2 ih =>
    rw [List.cons_append, pair_cons] at h
    rcases h with ⟨h1, h2⟩ | h
    · have hd : d = ' ' := hrun d (List.mem_cons_self d run2)
      cases run2 with
      | nil =>
        rw [List.nil_append] at h2
        exact Or.inr (Or.inl ⟨h1 ▸ hd, h2⟩)
      | cons e run3 =>
        have he : e = ' ' := hrun e (List.mem_cons_of_mem d
          (List.mem_cons_self e run3))
        rw [List.cons_append] at h2
        injection h2 with h2
        exact Or.inl ⟨h1 ▸ hd, h2 ▸ he⟩
    · exact ih (fun c hc => hrun c (List.mem_cons_of_mem d hc)) h

/-- A list splits around the element delivered by `getElem?`. -/
theorem getElem?_decomp (l : List Char) (i : Nat) (a : Char)
    (h : l[i]? = some a) : l = l.take i ++ a :: l.drop (i + 1) := by
  obtain ⟨hi, hval⟩ := List.getElem?_eq_some.mp h
  conv_lhs => rw [← List.take_append_drop i l]
  rw [List.drop_eq_getElem_cons hi, hval]

/-- A two-character infix is the same as two consecutive positions. -/
theorem infix_pair_positions (a b : Char) (l : List Char) :
    [a, b] <:+: l ↔ ∃ i, l[i]? = some a ∧ l[i + 1]? = some b := by
  constructor
  · intro h
    obtain ⟨s, t, heq⟩ := h
    have heq2 : s ++ a :: b :: t = l := by
      rw [← heq]
      simp
    refine ⟨s.length, ?_, ?_⟩
    · rw [← heq2, List.getElem?_append_right (le_refl _), Nat.sub_self]
      simp
    · rw [← heq2, List.getElem?_append_right (by omega),
        show s.length + 1 - s.length = 1 from by omega]
      simp
  · rintro ⟨i, h1, h2⟩
    have hd1 := getElem?_decomp l i a h1
    have h2d : (l.drop (i + 1))[0]? = some b := by
      rw [List.getElem?_drop]
      exact h2
    cases hdrop : l.drop (i + 1) with
    | nil =>
      rw [hdrop] at h2d
      exact absurd h2d (by simp)
    | cons d m =>
      rw [hdrop, List.getElem?_cons_zero] at h2d
      injection h2d with h2d
      refine ⟨l.take i, m, ?_⟩
      conv_rhs => rw [hd1, hdrop]
      rw [h2d]
      simp

/-- The last element of an append with a nonempty right part. -/
theorem getLast?_append_ne (A B : List Char) (hB : B ≠ []) :
    (A ++ B).getLast? = B.getLast? := by
  rw [← List.head?_reverse, ← List.head?_reverse (l := B),
    List.reverse_append]
  cases hB2 : B.reverse with
  | nil => exact absurd (List.reverse_eq_nil_iff.mp hB2) hB
  | cons d D => rfl

/-- The head of an append with a nonempty left part. -/
theorem head?_append_ne (A B : List Char) (hA : A ≠ []) :
    (A ++ B).head? = A.head? := by
  cases A with
  | nil => exact absurd rfl hA
  | cons c m => rfl

/-- Tab-freeness transfers to infixes. -/
theorem noTab_mono (l l' : List Char) (h : l' <:+: l) (ht : noTab l) :
    noTab l' :=
  fun hm => ht (h.subset hm)

/-- The last element of a strictly increasing list bounds its members. -/
theorem sorted_getLast?_le (l : List Nat) (k : Nat)
    (hp : l.Pairwise (· < ·)) (h : l.getLast? = some k) :
    ∀ x ∈ l, x ≤ k := by
  induction l with
  | nil => intro x hx; simp at hx
  | cons a m ih =>
    intro x hx
    cases m with
    | nil =>
      simp only [List.getLast?_singleton, Option.some.injEq] at h
      have hxa := List.mem_singleton.mp hx
      omega
    | cons b m2 =>
      rw [List.getLast?_cons_cons] at h
      rw [List.pairwise_cons] at hp
      rcases List.mem_cons.mp hx with hxa | hxm
      · have hk : k ∈ b :: m2 := List.mem_of_mem_getLast? h
        have := hp.1 k hk
        omega
      · exact ih hp.2 h x hxm

/-- A hit of `lastNLIdx` is the last newline inside the whitespace
prefix. -/
theorem lastNLIdx_max (l : List Char) (k : Nat) (h : lastNLIdx l = some k) :
    ∀ j, (l.takeWhile isPyWS)[j]? = some '\n' → j ≤ k := by
  intro j hj
  rw [lastNLIdx] at h
  apply sorted_getLast?_le _ k ?_ h j
  · rw [List.mem_filter, List.mem_range]
    refine ⟨(List.getElem?_eq_some.mp hj).1, ?_⟩
    rw [hj]
    rfl
  · exact (List.pairwise_lt_range _).filter _

/-- `takeWhile` walks through a block that satisfies the predicate. -/
theorem takeWhile_append_all (A B : List Char)
    (h : ∀ c ∈ A, isPyWS c = true) :
    (A ++ B).takeWhile isPyWS = A ++ B.takeWhile isPyWS := by
  induction A with
  | nil => simp
  | cons a m ih =>
    rw [List.cons_append, List.takeWhile_cons,
      if_pos (h a (List.mem_cons_self a m)), List.cons_append,
      ih (fun c hc => h c (List.mem_cons_of_mem a hc))]

/-- Taking after dropping the same predicate yields nothing. -/
theorem takeWhile_dropWhile (p : Char → Bool) (l : List Char) :
    (l.dropWhile p).takeWhile p = [] := by
  cases hd : l.dropWhile p with
  | nil => rfl
  | cons c m =>
    have hc := head?_dropWhile_not p l c (by rw [hd]; rfl)
    rw [List.takeWhile_cons, if_neg (by rw [hc]; exact Bool.false_ne_true)]

/-- No newline inside the leading whitespace run. -/
def nlFree (l : List Char) : Prop := '\n' ∉ l.takeWhile isPyWS

/-- After a hit of `lastNLIdx`, the remainder has a newline-free leading
whitespace run. -/
theorem nlFree_drop (rest : List Char) (k : Nat)
    (h : lastNLIdx rest = some k) : nlFree (rest.drop (k + 1)) := by
  obtain ⟨hk, hkval⟩ := lastNLIdx_mem rest k h
  have hTD : rest.takeWhile isPyWS ++ rest.dropWhile isPyWS = rest :=
    List.takeWhile_append_dropWhile isPyWS rest
  have hsplit : rest.drop (k + 1) =
      (rest.takeWhile isPyWS).drop (k + 1) ++ rest.dropWhile isPyWS := by
    conv_lhs => rw [← hTD]
    rw [List.drop_append_eq_append_drop,
      show k + 1 - (rest.takeWhile isPyWS).length = 0 from by omega,
      List.drop_zero]
  intro hmem
  rw [hsplit, takeWhile_append_all _ _
    (fun c hc => List.mem_takeWhile_imp (List.drop_subset _ _ hc)),
    takeWhile_dropWhile, List.append_nil] at hmem
  obtain ⟨j, hj⟩ := List.mem_iff_getElem?.mp hmem
  rw [List.getElem?_drop] at hj
  have := lastNLIdx_max rest k h (k + 1 + j) hj
  omega

/-- Pass 2 keeps the leading whitespace run newline-free. -/
theorem pass2_nlFree (l : List Char) (h : nlFree l) : nlFree (pass2 l) := by
  induction l using pass2.induct with
  | case1 =>
    rw [pass2]
    exact h
  | case2 rest k heq ih =>
    exfalso
    apply h
    rw [List.takeWhile_cons, if_pos (by decide)]
    exact List.mem_cons_self _ _
  | case3 rest heq ih =>
    exfalso
    apply h
    rw [List.takeWhile_cons, if_pos (by decide)]
    exact List.mem_cons_self _ _
  | case4 c rest hc ih =>
    rw [pass2, if_neg hc]
    intro hmem
    by_cases hpc : isPyWS c = true
    · rw [List.takeWhile_cons, if_pos hpc] at hmem
      rcases List.mem_cons.mp hmem with hh | hh
      · apply h
        rw [List.takeWhile_cons, if_pos hpc, hh]
        exact List.mem_cons_self _ _
      · apply ih ?_ hh
        intro hm2
        apply h
        rw [List.takeWhile_cons, if_pos hpc]
        exact List.mem_cons_of_mem c hm2
    · rw [List.takeWhile_cons, if_neg hpc] at hmem
      simp at hmem

/-- A block before a newline in a newline-free-prefix text holds a
non-whitespace character. -/
theorem nlFree_gap (P w t : List Char) (h : nlFree P)
    (heq : P = w ++ '\n' :: t) : ∃ c ∈ w, isPyWS c = false := by
  by_contra hall
  push_neg at hall
  apply h
  rw [heq, takeWhile_append_all w _ (fun c hc => by
    have := hall c hc
    cases hpc : isPyWS c with
    | false => exact absurd hpc this
    | true => rfl)]
  rw [List.takeWhile_cons, if_pos (by decide)]
  exact List.mem_append_right _ (List.mem_cons_self _ _)

/-- The output of pass 2 has pair separation: between any two line breaks
with a nonempty block in between there is a non-whitespace character. -/
theorem pass2_PairSep (l : List Char) : PairSep (pass2 l) := by
  induction l using pass2.induct with
  | case1 =>
    intro s w t heq hw
    rw [pass2] at heq
    exact absurd heq.symm (by simp)
  | case2 rest k heq2 ih =>
    have hP : nlFree (pass2 (rest.drop (k + 1))) :=
      pass2_nlFree _ (nlFree_drop rest k heq2)
    rw [pass2, if_pos rfl, heq2]
    show PairSep ('\n' :: '\n' :: pass2 (rest.drop (k + 1)))
    intro s w t hdec hw
    cases s with
    | nil =>
      rw [List.nil_append] at hdec
      injection hdec with _ hdec
      cases w with
      | nil => exact absurd rfl hw
      | cons c w2 =>
        rw [List.cons_append] at hdec
        injection hdec with _ hdec
        obtain ⟨c2, hc2, hcw⟩ := nlFree_gap _ w2 t hP hdec
        exact ⟨c2, List.mem_cons_of_mem c hc2, hcw⟩
    | cons c s2 =>
      rw [List.cons_append] at hdec
      injection hdec with _ hdec
      cases s2 with
      | nil =>
        rw [List.nil_append] at hdec
        injection hdec with _ hdec
        exact nlFree_gap _ w t hP hdec
      | cons d s3 =>
        rw [List.cons_append] at hdec
        injection hdec with _ hdec
        exact ih s3 w t hdec hw
  | case3 rest heq2 ih =>
    have hfree : nlFree rest := by
      intro hmem
      rw [lastNLIdx] at heq2
      obtain ⟨j, hj⟩ := List.mem_iff_getElem?.mp hmem
      have hjmem : j ∈ (List.range (rest.takeWhile isPyWS).length).filter
          (fun k => (rest.takeWhile isPyWS)[k]? == some '\n') := by
        rw [List.mem_filter, List.mem_range]
        refine ⟨(List.getElem?_eq_some.mp hj).1, ?_⟩
        rw [hj]
        rfl
      rw [List.getLast?_eq_none_iff.mp heq2] at hjmem
      simp at hjmem
    have hP : nlFree (pass2 rest) := pass2_nlFree _ hfree
    rw [pass2, if_pos rfl, heq2]
    show PairSep ('\n' :: pass2 rest)
    intro s w t hdec hw
    cases s with
    | nil =>
      rw [List.nil_append] at hdec
      injection hdec with _ hdec
      exact nlFree_gap _ w t hP hdec
    | cons c s2 =>
      rw [List.cons_append] at hdec
      injection hdec with _ hdec
      exact ih s2 w t hdec hw
  | case4 c rest hc ih =>
    rw [pass2, if_neg hc]
    intro s w t hdec hw
    cases s with
    | nil =>
      rw [List.nil_append] at hdec
      injection hdec with hdec
      exact absurd hdec hc
    | cons d s2 =>
      rw [List.cons_append] at hdec
      injection hdec with _ hdec
      exact ih s2 w t hdec hw

/-- Pass 2 keeps the first character. -/
theorem pass2_head? (l : List Char) : (pass2 l).head? = l.head? := by
  cases l with
  | nil => rw [pass2]
  | cons c rest =>
    by_cases hc : c = '\n'
    · subst hc
      cases heq : lastNLIdx rest with
      | none => rw [pass2, if_pos rfl, heq]; rfl
      | some k => rw [pass2, if_pos rfl, heq]; rfl
    · rw [pass2, if_neg hc]; rfl

/-- The output of pass 1 has no two adjacent spaces. -/
theorem pass1_noDSp (l : List Char) : noDSp (pass1 l) := by
  induction l using pass1.induct with
  | case1 =>
    intro h
    rw [pass1] at h
    simp at h
  | case2 c rest hc ih =>
    rw [pass1, if_pos hc]
    intro h
    rw [pair_cons] at h
    rcases h with ⟨_, hh⟩ | h
    · cases hz : rest.dropWhile isHWS with
      | nil =>
        rw [hz, pass1] at hh
        simp at hh
      | cons d m =>
        have hd := head?_dropWhile_not isHWS rest d (by rw [hz]; rfl)
        rw [hz, pass1, if_neg (by rw [hd]; exact Bool.false_ne_true)] at hh
        injection hh with hh
        rw [hh] at hd
        exact absurd hd (by decide)
    · exact ih h
  | case3 c rest hc ih =>
    rw [pass1, if_neg hc]
    intro h
    rw [pair_cons] at h
    rcases h with ⟨hc1, _⟩ | h
    · apply hc
      rw [hc1]
      decide
    · exact ih h

/-- Pass 2 preserves the absence of two adjacent spaces. -/
theorem pass2_noDSp (l : List Char) (h : noDSp l) : noDSp (pass2 l) := by
  induction l using pass2.induct with
  | case1 =>
    rw [pass2]
    exact h
  | case2 rest k heq ih =>
    rw [pass2, if_pos rfl, heq]
    show ¬ ([' ', ' '] <:+: '\n' :: '\n' :: pass2 (rest.drop (k + 1)))
    intro hin
    rw [pair_cons] at hin
    rcases hin with ⟨h1, _⟩ | hin
    · exact absurd h1 (by decide)
    rw [pair_cons] at hin
    rcases hin with ⟨h1, _⟩ | hin
    · exact absurd h1 (by decide)
    exact ih (notInfix_mono _ _ _ h
      ((List.drop_suffix (k + 1) rest).trans
        (List.suffix_cons '\n' rest)).isInfix) hin
  | case3 rest heq ih =>
    rw [pass2, if_pos rfl, heq]
    show ¬ ([' ', ' '] <:+: '\n' :: pass2 rest)
    intro hin
    rw [pair_cons] at hin
    rcases hin with ⟨h1, _⟩ | hin
    · exact absurd h1 (by decide)
    exact ih (notInfix_mono _ _ _ h (List.suffix_cons '\n' rest).isInfix) hin
  | case4 c rest hc ih =>
    rw [pass2, if_neg hc]
    intro hin
    rw [pair_cons] at hin
    rcases hin with ⟨hc1, hh⟩ | hin
    · rw [pass2_head?] at hh
      cases rest with
      | nil => simp at hh
      | cons d m =>
        injection hh with hh
        apply h
        refine ⟨[], m, ?_⟩
        rw [hc1, hh]
        rfl
    · exact ih (notInfix_mono _ _ _ h (List.suffix_cons c rest).isInfix) hin

/-- The output of pass 1 is tab-free. -/
theorem pass1_noTab (l : List Char) : noTab (pass1 l) := by
  induction l using pass1.induct with
  | case1 =>
    rw [pass1]
    simp [noTab]
  | case2 c rest hc ih =>
    rw [pass1, if_pos hc]
    intro hm
    rcases List.mem_cons.mp hm with hh | hh
    · exact absurd hh (by decide)
    · exact ih hh
  | case3 c rest hc ih =>
    rw [pass1, if_neg hc]
    intro hm
    rcases List.mem_cons.mp hm with hh | hh
    · apply hc
      rw [← hh]
      decide
    · exact ih hh

/-- Pass 2 preserves tab-freeness. -/
theorem pass2_noTab (l : List Char) (h : noTab l) : noTab (pass2 l) := by
  induction l using pass2.induct with
  | case1 =>
    rw [pass2]
    exact h
  | case2 rest k heq ih =>
    rw [pass2, if_pos rfl, heq]
    show '\t' ∉ '\n' :: '\n' :: pass2 (rest.drop (k + 1))
    intro hm
    rcases List.mem_cons.mp hm with hh | hm
    · exact absurd hh (by decide)
    rcases List.mem_cons.mp hm with hh | hm
    · exact absurd hh (by decide)
    exact ih (fun hm2 => h (List.mem_cons_of_mem _
      (List.drop_subset _ _ hm2))) hm
  | case3 rest heq ih =>
    rw [pass2, if_pos rfl, heq]
    show '\t' ∉ '\n' :: pass2 rest
    intro hm
    rcases List.mem_cons.mp hm with hh | hm
    · exact absurd hh (by decide)
    exact ih (fun hm2 => h (List.mem_cons_of_mem _ hm2)) hm
  | case4 c rest hc ih =>
    rw [pass2, if_neg hc]
    intro hm
    rcases List.mem_cons.mp hm with hh | hm
    · apply h
      rw [hh]
      exact List.mem_cons_self _ _
    · exact ih (fun hm2 => h (List.mem_cons_of_mem _ hm2)) hm

/-- Pass 3 steps over a character that is neither a line break nor a
space. -/
theorem pass3_cons_ne (c : Char) (rest : List Char) (h1 : ¬ (c = '\n'))
    (h2 : ¬ (c = ' ')) : pass3 (c :: rest) = c :: pass3 rest := by
  rw [pass3, if_neg h1, if_neg h2]

/-- Pass 3 only starts with a space when its input does. -/
theorem pass3_head_sp (l : List Char) (h : (pass3 l).head? = some ' ') :
    l.head? = some ' ' := by
  cases l with
  | nil =>
    rw [pass3] at h
    simp at h
  | cons c rest =>
    by_cases hc : c = '\n'
    · subst hc
      rw [pass3, if_pos rfl] at h
      injection h with h
      exact absurd h (by decide)
    · by_cases hc2 : c = ' '
      · subst hc2
        rfl
      · rw [pass3_cons_ne c rest hc hc2] at h
        injection h with h
        exact absurd h hc2

/-- Pass 3 cannot start with a line break when its input starts with
neither a space nor a line break. -/
theorem pass3_head_not_nl (r : List Char)
    (hsp : ∀ c, r.head? = some c → isSp c = false)
    (hnl : ∀ m : List Char, r ≠ '\n' :: m)
    (h : (pass3 r).head? = some '\n') : False := by
  cases r with
  | nil =>
    rw [pass3] at h
    simp at h
  | cons d m =>
    have hd2 : isSp d = false := hsp d rfl
    have hdsp : ¬ (d = ' ') := fun hh => by
      rw [hh] at hd2
      exact absurd hd2 (by decide)
    have hdnl : ¬ (d = '\n') := fun hh => hnl m (by rw [hh])
    rw [pass3_cons_ne d m hdnl hdsp] at h
    injection h with h
    exact hdnl h

/-- The output of pass 3 has no space adjacent to a line break. -/
theorem pass3_noSpNl (l : List Char) : noSpNl (pass3 l) := by
  induction l using pass3.induct with
  | case1 =>
    rw [pass3]
    exact ⟨fun hh => by simp at hh, fun hh => by simp at hh⟩
  | case2 rest ih =>
    rw [pass3, if_pos rfl]
    constructor
    · intro hin
      rw [pair_cons] at hin
      rcases hin with ⟨h1, _⟩ | hin
      · exact absurd h1 (by decide)
      · exact ih.1 hin
    · intro hin
      rw [pair_cons] at hin
      rcases hin with ⟨_, hh⟩ | hin
      · have hsp := pass3_head_sp _ hh
        have h2 := head?_dropWhile_not isSp rest ' ' hsp
        exact absurd h2 (by decide)
      · exact ih.2 hin
  | case3 rest rest2 heq hne ih =>
    rw [pass3, if_neg hne, if_pos rfl, heq]
    show noSpNl ('\n' :: pass3 (rest2.dropWhile isSp))
    constructor
    · intro hin
      rw [pair_cons] at hin
      rcases hin with ⟨h1, _⟩ | hin
      · exact absurd h1 (by decide)
      · exact ih.1 hin
    · intro hin
      rw [pair_cons] at hin
      rcases hin with ⟨_, hh⟩ | hin
      · have hsp := pass3_head_sp _ hh
        have h2 := head?_dropWhile_not isSp rest2 ' ' hsp
        exact absurd h2 (by decide)
      · exact ih.2 hin
  | case4 rest hne hno ih =>
    rw [pass3, if_neg hne, if_pos rfl]
    split
    · exfalso
      apply hno
      assumption
    · rename_i hsplit
      rw [List.cons_append]
      have hh3 : ∀ c, (rest.dropWhile isSp).head? = some c →
          isSp c = false :=
        fun c hc => head?_dropWhile_not isSp rest c hc
      have hnl : ∀ m : List Char, rest.dropWhile isSp ≠ '\n' :: m :=
        fun m hm => hsplit m hm
      have hrunsp : ∀ c ∈ rest.takeWhile isSp, c = ' ' := fun c hc => by
        have hc2 := List.mem_takeWhile_imp hc
        rw [isSp, decide_eq_true_eq] at hc2
        exact hc2
      constructor
      · intro hin
        rw [pair_cons] at hin
        rcases hin with ⟨_, hh⟩ | hin
        · cases hrun : rest.takeWhile isSp with
          | nil =>
            rw [hrun, List.nil_append] at hh
            exact pass3_head_not_nl _ hh3 hnl hh
          | cons e run2 =>
            rw [hrun, List.cons_append] at hh
            injection hh with hh
            have he : e = ' ' := hrunsp e (by
              rw [hrun]
              exact List.mem_cons_self _ _)
            rw [he] at hh
            exact absurd hh (by decide)
        · rcases pair_append_sp _ _ _ _ hrunsp hin with
            ⟨_, hb⟩ | ⟨_, hh⟩ | hin2
          · exact absurd hb (by decide)
          · exact pass3_head_not_nl _ hh3 hnl hh
          · exact ih.1 hin2
      · intro hin
        rw [pair_cons] at hin
        rcases hin with ⟨h1, _⟩ | hin
        · exact absurd h1 (by decide)
        · rcases pair_append_sp _ _ _ _ hrunsp hin with
            ⟨ha, _⟩ | ⟨ha, _⟩ | hin2
          · exact absurd ha (by decide)
          · exact absurd ha (by decide)
          · exact ih.2 hin2
  | case5 c rest hc1 hc2 ih =>
    rw [pass3, if_neg hc1, if_neg hc2]
    constructor
    · intro hin
      rw [pair_cons] at hin
      rcases hin with ⟨h1, _⟩ | hin
      · exact hc2 h1
      · exact ih.1 hin
    · intro hin
      rw [pair_cons] at hin
      rcases hin with ⟨h1, _⟩ | hin
      · exact hc1 h1
      · exact ih.2 hin

/-- Pass 3 preserves the absence of two adjacent spaces. -/
theorem pass3_noDSp (l : List Char) (h : noDSp l) : noDSp (pass3 l) := by
  induction l using pass3.induct with
  | case1 =>
    rw [pass3]
    exact h
  | case2 rest ih =>
    rw [pass3, if_pos rfl]
    intro hin
    rw [pair_cons] at hin
    rcases hin with ⟨h1, _⟩ | hin
    · exact absurd h1 (by decide)
    · exact ih (notInfix_mono _ _ _ h ((List.dropWhile_suffix isSp).trans
        (List.suffix_cons '\n' rest)).isInfix) hin
  | case3 rest rest2 heq hne ih =>
    rw [pass3, if_neg hne, if_pos rfl, heq]
    show ¬ ([' ', ' '] <:+: '\n' :: pass3 (rest2.dropWhile isSp))
    intro hin
    rw [pair_cons] at hin
    rcases hin with ⟨h1, _⟩ | hin
    · exact absurd h1 (by decide)
    · have hsfx : rest2.dropWhile isSp <:+ ' ' :: rest := by
        have s3 : rest.dropWhile isSp <:+ rest := List.dropWhile_suffix isSp
        rw [heq] at s3
        exact (((List.dropWhile_suffix isSp).trans
          (List.suffix_cons '\n' rest2)).trans s3).trans
          (List.suffix_cons ' ' rest)
      exact ih (notInfix_mono _ _ _ h hsfx.isInfix) hin
  | case4 rest hne hno ih =>
    have htw : rest.takeWhile isSp = [] := by
      cases rest with
      | nil => rfl
      | cons d rest2 =>
        rw [List.takeWhile_cons, if_neg]
        intro hd
        rw [isSp, decide_eq_true_eq] at hd
        apply h
        rw [hd]
        exact ⟨[], rest2, rfl⟩
    have hdw : rest.dropWhile isSp = rest := by
      cases rest with
      | nil => rfl
      | cons d rest2 =>
        rw [List.dropWhile_cons, if_neg]
        intro hd
        rw [isSp, decide_eq_true_eq] at hd
        apply h
        rw [hd]
        exact ⟨[], rest2, rfl⟩
    rw [hdw] at ih
    rw [pass3, if_neg hne, if_pos rfl]
    split
    · exfalso
      apply hno
      assumption
    · rw [htw, hdw]
      intro hin
      rw [show (' ' :: ([] : List Char)) ++ pass3 rest = ' ' :: pass3 rest
        from rfl] at hin
      rw [pair_cons] at hin
      rcases hin with ⟨_, hh⟩ | hin
      · have hsp := pass3_head_sp _ hh
        cases rest with
        | nil => simp at hsp
        | cons d m =>
          injection hsp with hsp
          apply h
          refine ⟨[], m, ?_⟩
          rw [hsp]
          rfl
      · exact ih (notInfix_mono _ _ _ h
          (List.suffix_cons ' ' rest).isInfix) hin
  | case5 c rest hc1 hc2 ih =>
    rw [pass3, if_neg hc1, if_neg hc2]
    intro hin
    rw [pair_cons] at hin
    rcases hin with ⟨h1, hh⟩ | hin
    · have hsp := pass3_head_sp _ hh
      cases rest with
      | nil => simp at hsp
      | cons d m =>
        injection hsp with hsp
        apply h
        refine ⟨[], m, ?_⟩
        rw [h1, hsp]
        rfl
    · exact ih (notInfix_mono _ _ _ h
        (List.suffix_cons c rest).isInfix) hin

/-- Pass 3 preserves tab-freeness. -/
theorem pass3_noTab (l : List Char) (h : noTab l) : noTab (pass3 l) := by
  induction l using pass3.induct with
  | case1 =>
    rw [pass3]
    exact h
  | case2 rest ih =>
    rw [pass3, if_pos rfl]
    intro hm
    rcases List.mem_cons.mp hm with hh | hm
    · exact absurd hh (by decide)
    · exact ih (noTab_mono _ _ ((List.dropWhile_suffix isSp).trans
        (List.suffix_cons '\n' rest)).isInfix h) hm
  | case3 rest rest2 heq hne ih =>
    rw [pass3, if_neg hne, if_pos rfl, heq]
    show '\t' ∉ '\n' :: pass3 (rest2.dropWhile isSp)
    intro hm
    rcases List.mem_cons.mp hm with hh | hm
    · exact absurd hh (by decide)
    · have hsfx : rest2.dropWhile isSp <:+ ' ' :: rest := by
        have s3 : rest.dropWhile isSp <:+ rest := List.dropWhile_suffix isSp
        rw [heq] at s3
        exact (((List.dropWhile_suffix isSp).trans
          (List.suffix_cons '\n' rest2)).trans s3).trans
          (List.suffix_cons ' ' rest)
      exact ih (noTab_mono _ _ hsfx.isInfix h) hm
  | case4 rest hne hno ih =>
    rw [pass3, if_neg hne, if_pos rfl]
    split
    · exfalso
      apply hno
      assumption
    · intro hm
      rcases List.mem_append.mp hm with hm1 | hm2
      · rcases List.mem_cons.mp hm1 with hh | hh
        · exact absurd hh (by decide)
        · have := List.mem_takeWhile_imp hh
          exact absurd this (by decide)
      · exact ih (noTab_mono _ _ ((List.dropWhile_suffix isSp).trans
          (List.suffix_cons ' ' rest)).isInfix h) hm2
  | case5 c rest hc1 hc2 ih =>
    rw [pass3, if_neg hc1, if_neg hc2]
    intro hm
    rcases List.mem_cons.mp hm with hh | hm
    · apply h
      rw [hh]
      exact List.mem_cons_self _ _
    · exact ih (noTab_mono _ _ (List.suffix_cons c rest).isInfix h) hm

/-- `SubSp out inp` says `out` is `inp` with some spaces deleted. -/
inductive SubSp : List Char → List Char → Prop
  | nil : SubSp [] []
  | keep (c : Char) {out inp : List Char} :
      SubSp out inp → SubSp (c :: out) (c :: inp)
  | del {out inp : List Char} : SubSp out inp → SubSp out (' ' :: inp)

/-- Deleting spaces never lengthens a list. -/
theorem SubSp_length {out inp : List Char} (h : SubSp out inp) :
    out.length ≤ inp.length := by
  induction h with
  | nil => exact le_refl _
  | keep c h ih =>
    rw [List.length_cons, List.length_cons]
    omega
  | del h ih =>
    rw [List.length_cons]
    omega

/-- Non-space characters survive the deletion of spaces. -/
theorem SubSp_mem {out inp : List Char} (h : SubSp out inp) (c : Char)
    (hc : c ∈ inp) (hne : c ≠ ' ') : c ∈ out := by
  induction h with
  | nil => exact absurd hc (by simp)
  | keep d h ih =>
    rcases List.mem_cons.mp hc with hh | hh
    · rw [hh]
      exact List.mem_cons_self _ _
    · exact List.mem_cons_of_mem d (ih hh)
  | del h ih =>
    rcases List.mem_cons.mp hc with hh | hh
    · exact absurd hh hne
    · exact ih hh

/-- A space deletion from the space-dropped tail is a space deletion from
the whole list. -/
theorem SubSp_dropSp (out rest : List Char)
    (h : SubSp out (rest.dropWhile isSp)) : SubSp out rest := by
  induction rest with
  | nil => exact h
  | cons d r ih =>
    by_cases hd : isSp d = true
    · rw [List.dropWhile_cons, if_pos hd] at h
      have hd2 : d = ' ' := by
        rw [isSp, decide_eq_true_eq] at hd
        exact hd
      rw [hd2]
      exact SubSp.del (ih h)
    · rw [List.dropWhile_cons, if_neg hd] at h
      exact h

/-- Prepending an all-space run to the source of a space deletion. -/
theorem SubSp_appendRun (run : List Char) {out inp : List Char}
    (hrun : ∀ c ∈ run, c = ' ') (h : SubSp out inp) :
    SubSp out (run ++ inp) := by
  induction run with
  | nil => exact h
  | cons d r ih =>
    rw [List.cons_append, hrun d (List.mem_cons_self d r)]
    exact SubSp.del (ih (fun c hc => hrun c (List.mem_cons_of_mem d hc)))

/-- Prepending a common run to both sides of a space deletion. -/
theorem SubSp_keepRun (run : List Char) {out inp : List Char}
    (h : SubSp out inp) : SubSp (run ++ out) (run ++ inp) := by
  induction run with
  | nil => exact h
  | cons d r ih => exact SubSp.keep d ih

/-- Pass 3 deletes only spaces. -/
theorem pass3_SubSp (l : List Char) : SubSp (pass3 l) l := by
  induction l using pass3.induct with
  | case1 =>
    rw [pass3]
    exact SubSp.nil
  | case2 rest ih =>
    rw [pass3, if_pos rfl]
    exact SubSp.keep '\n' (SubSp_dropSp _ rest ih)
  | case3 rest rest2 heq hne ih =>
    rw [pass3, if_neg hne, if_pos rfl, heq]
    show SubSp ('\n' :: pass3 (rest2.dropWhile isSp)) (' ' :: rest)
    apply SubSp.del
    conv_rhs => rw [← List.takeWhile_append_dropWhile isSp rest, heq]
    apply SubSp_appendRun _ (fun c hc => by
      have hc2 := List.mem_takeWhile_imp hc
      rw [isSp, decide_eq_true_eq] at hc2
      exact hc2)
    exact SubSp.keep '\n' (SubSp_dropSp _ rest2 ih)
  | case4 rest hne hno ih =>
    rw [pass3, if_neg hne, if_pos rfl]
    split
    · exfalso
      apply hno
      assumption
    · rw [List.cons_append]
      apply SubSp.keep ' '
      conv_rhs => rw [← List.takeWhile_append_dropWhile isSp rest]
      exact SubSp_keepRun _ ih
  | case5 c rest hc1 hc2 ih =>
    rw [pass3, if_neg hc1, if_neg hc2]
    exact SubSp.keep c ih

/-- A decomposition of the output of a space deletion at a line break
pulls back to the source. -/
theorem SubSp_decomp {out inp : List Char} (h : SubSp out inp) :
    ∀ s t : List Char, out = s ++ '\n' :: t →
      ∃ s2 t2 : List Char, inp = s2 ++ '\n' :: t2 ∧ SubSp s s2 ∧
        SubSp t t2 := by
  induction h with
  | nil =>
    intro s t heq
    exact absurd heq.symm (by simp)
  | @keep c out2 inp2 h ih =>
    intro s t heq
    cases s with
    | nil =>
      rw [List.nil_append] at heq
      injection heq with hc hout
      refine ⟨[], inp2, ?_, SubSp.nil, hout ▸ h⟩
      rw [hc, List.nil_append]
    | cons d s2 =>
      rw [List.cons_append] at heq
      injection heq with hc hout
      obtain ⟨s3, t3, hi, hs, ht⟩ := ih s2 t hout
      refine ⟨d :: s3, t3, ?_, SubSp.keep d hs, ht⟩
      rw [← hc, List.cons_append, hi]
  | del h ih =>
    intro s t heq
    obtain ⟨s3, t3, hi, hs, ht⟩ := ih s t heq
    exact ⟨' ' :: s3, t3, by rw [List.cons_append, hi], SubSp.del hs, ht⟩

/-- Pair separation pulls back along the deletion of spaces. -/
theorem SubSp_PairSep {out inp : List Char} (h : SubSp out inp)
    (hp : PairSep inp) : PairSep out := by
  intro s w t heq hw
  obtain ⟨s2, u, hi, hs, hu⟩ := SubSp_decomp h s (w ++ '\n' :: t) heq
  obtain ⟨w2, t2, hu2, hw2, ht2⟩ := SubSp_decomp hu w t rfl
  have hw2ne : w2 ≠ [] := by
    intro hnil
    apply hw
    have hl := SubSp_length hw2
    rw [hnil] at hl
    simp at hl
    exact hl
  obtain ⟨c, hcmem, hcws⟩ := hp s2 w2 t2 (by rw [hi, hu2]) hw2ne
  have hcne : c ≠ ' ' := by
    intro hsp
    rw [hsp] at hcws
    exact absurd hcws (by decide)
  exact ⟨c, SubSp_mem hw2 c hcmem hcne, hcws⟩

/-- Element lookup one past a cons. -/
theorem getElem?_c1 (a b : Char) (m : List Char) :
    (a :: b :: m)[1]? = some b := by
  rw [show (1 : Nat) = 0 + 1 from by omega, List.getElem?_cons_succ,
    List.getElem?_cons_zero]

/-- Element lookup two past two conses. -/
theorem getElem?_c2 (a b c : Char) (m : List Char) :
    (a :: b :: c :: m)[2]? = some c := by
  rw [show (2 : Nat) = 1 + 1 from by omega, List.getElem?_cons_succ,
    getElem?_c1]

/-- Element lookup beyond three conses. -/
theorem getElem?_cons3 (a b c : Char) (m : List Char) (n : Nat) :
    (a :: b :: c :: m)[n + 3]? = m[n]? := by
  rw [show n + 3 = n + 2 + 1 from by omega, List.getElem?_cons_succ,
    show n + 2 = n + 1 + 1 from by omega, List.getElem?_cons_succ,
    List.getElem?_cons_succ]

/-- Pair separation transfers along a length-preserving map that never
creates line breaks and keeps every character that is not a line
break. -/
theorem PairSep_pointwise (out inp : List Char)
    (hlen : out.length = inp.length)
    (hnl : ∀ i : Nat, out[i]? = some '\n' → inp[i]? = some '\n')
    (hkeep : ∀ (i : Nat) (c : Char), inp[i]? = some c → c ≠ '\n' →
      out[i]? = some c)
    (hp : PairSep inp) : PairSep out := by
  intro s w t heq hw
  have h1 : out[s.length]? = some '\n' := by
    rw [heq, List.getElem?_append_right (le_refl _), Nat.sub_self]
    simp
  have h2 : out[s.length + 1 + w.length]? = some '\n' := by
    rw [heq, List.getElem?_append_right (by omega),
      show s.length + 1 + w.length - s.length = w.length + 1 from by omega,
      List.getElem?_cons_succ, List.getElem?_append_right (le_refl _),
      Nat.sub_self]
    simp
  have hi1 := hnl _ h1
  have hi2 := hnl _ h2
  have hlout : out.length = s.length + 1 + w.length + 1 + t.length := by
    rw [heq]
    simp only [List.length_append, List.length_cons]
    omega
  have hd1 := getElem?_decomp inp s.length '\n' hi1
  have hj : (inp.drop (s.length + 1))[w.length]? = some '\n' := by
    rw [List.getElem?_drop]
    exact hi2
  have hdrop := getElem?_decomp _ w.length '\n' hj
  rw [List.drop_drop] at hdrop
  rw [show s.length + 1 + (w.length + 1) =
    s.length + 1 + w.length + 1 from by omega] at hdrop
  have hw0len : ((inp.drop (s.length + 1)).take w.length).length =
      w.length := by
    rw [List.length_take, List.length_drop]
    omega
  have hfull : inp = inp.take s.length ++ '\n' ::
      ((inp.drop (s.length + 1)).take w.length ++ '\n' ::
        inp.drop (s.length + 1 + w.length + 1)) := by
    conv_lhs => rw [hd1, hdrop]
  obtain ⟨c, hcmem, hcws⟩ := hp (inp.take s.length)
    ((inp.drop (s.length + 1)).take w.length)
    (inp.drop (s.length + 1 + w.length + 1)) hfull
    (fun h0 => hw (List.eq_nil_of_length_eq_zero
      (by rw [← hw0len, h0]; rfl)))
  obtain ⟨j, hj2⟩ := List.mem_iff_getElem?.mp hcmem
  have hjlt : j < w.length := by
    have := (List.getElem?_eq_some.mp hj2).1
    rwa [hw0len] at this
  have hcin : inp[s.length + 1 + j]? = some c := by
    rw [List.getElem?_take, if_pos hjlt, List.getElem?_drop] at hj2
    exact hj2
  have hcnl : c ≠ '\n' := by
    intro hh
    rw [hh] at hcws
    exact absurd hcws (by decide)
  have hout := hkeep _ c hcin hcnl
  rw [heq, List.getElem?_append_right (by omega),
    show s.length + 1 + j - s.length = j + 1 from by omega,
    List.getElem?_cons_succ, List.getElem?_append_left hjlt] at hout
  exact ⟨c, List.mem_iff_getElem?.mpr ⟨j, hout⟩, hcws⟩

/-- Pass 4 steps over one character when no match starts at it. -/
theorem pass4_cons_eq (a : Char) (rest : List Char)
    (hnm : ∀ (b : Char) (rest2 : List Char),
      rest = '\n' :: b :: rest2 → False) :
    pass4 (a :: rest) = a :: pass4 rest := by
  rw [pass4.eq_def]
  split
  · rename_i b rest2 heq
    injection heq with h1 h2
    exact absurd h2 (fun hh => hnm b rest2 hh)
  · rename_i a2 rest2 heq
    injection heq with h1 h2
    rw [h1, h2]
  · rename_i heq
    exact List.noConfusion heq

/-- Pass 4 preserves the length of the text. -/
theorem pass4_length (l : List Char) : (pass4 l).length = l.length := by
  induction l using pass4.induct with
  | case1 a b rest hab ih =>
    rw [pass4, if_pos hab]
    simp only [List.length_cons, ih]
  | case2 a b rest hab ih =>
    rw [pass4, if_neg hab]
    simp only [List.length_cons] at ih ⊢
    omega
  | case3 a rest hnm ih =>
    rw [pass4_cons_eq a rest hnm]
    simp only [List.length_cons, ih]
  | case4 =>
    rw [pass4]

/-- Each position of the output of pass 4 either carries the input
character or turns a line break flanked by letters into a space. -/
theorem pass4_cases (l : List Char) : ∀ i : Nat,
    (pass4 l)[i]? = l[i]? ∨
      ((pass4 l)[i]? = some ' ' ∧ l[i]? = some '\n' ∧ i ≠ 0 ∧
        (∃ a, l[i - 1]? = some a ∧ vietLower a = true) ∧
        (∃ b, l[i + 1]? = some b ∧ vietLower b = true)) := by
  induction l using pass4.induct with
  | case1 a b rest hab ih =>
    rw [pass4, if_pos hab]
    have hab2 := Bool.and_eq_true_iff.mp hab
    intro i
    match i with
    | 0 =>
      left
      rw [List.getElem?_cons_zero, List.getElem?_cons_zero]
    | 1 =>
      right
      refine ⟨?_, ?_, by omega, ⟨a, ?_, hab2.1⟩, ⟨b, ?_, hab2.2⟩⟩
      · rw [getElem?_c1]
      · rw [getElem?_c1]
      · rw [show (1 : Nat) - 1 = 0 from by omega, List.getElem?_cons_zero]
      · rw [show (1 : Nat) + 1 = 2 from by omega, getElem?_c2]
    | 2 =>
      left
      rw [getElem?_c2, getElem?_c2]
    | (j + 3) =>
      rcases ih j with hA | ⟨hA1, hA2, hA3, ⟨x, hx, hvx⟩, ⟨y, hy, hvy⟩⟩
      · left
        rw [getElem?_cons3, getElem?_cons3, hA]
      · right
        obtain ⟨j2, rfl⟩ : ∃ j2, j = j2 + 1 := ⟨j - 1, by omega⟩
        refine ⟨?_, ?_, by omega, ⟨x, ?_, hvx⟩, ⟨y, ?_, hvy⟩⟩
        · rw [getElem?_cons3]
          exact hA1
        · rw [getElem?_cons3]
          exact hA2
        · rw [show j2 + 1 + 3 - 1 = j2 + 3 from by omega, getElem?_cons3]
          rw [show j2 + 1 - 1 = j2 from by omega] at hx
          exact hx
        · rw [show j2 + 1 + 3 + 1 = j2 + 2 + 3 from by omega,
            getElem?_cons3]
          rw [show j2 + 1 + 1 = j2 + 2 from by omega] at hy
          exact hy
  | case2 a b rest hab ih =>
    rw [pass4, if_neg hab]
    intro i
    match i with
    | 0 =>
      left
      rw [List.getElem?_cons_zero, List.getElem?_cons_zero]
    | (j + 1) =>
      rcases ih j with hA | ⟨hA1, hA2, hA3, ⟨x, hx, hvx⟩, ⟨y, hy, hvy⟩⟩
      · left
        rw [List.getElem?_cons_succ, List.getElem?_cons_succ, hA]
      · right
        obtain ⟨j2, rfl⟩ : ∃ j2, j = j2 + 1 := ⟨j - 1, by omega⟩
        refine ⟨?_, ?_, by omega, ⟨x, ?_, hvx⟩, ⟨y, ?_, hvy⟩⟩
        · rw [List.getElem?_cons_succ]
          exact hA1
        · rw [List.getElem?_cons_succ]
          exact hA2
        · rw [show j2 + 1 + 1 - 1 = j2 + 1 from by omega,
            List.getElem?_cons_succ]
          rw [show j2 + 1 - 1 = j2 from by omega] at hx
          exact hx
        · rw [show j2 + 1 + 1 + 1 = j2 + 2 + 1 from by omega,
            List.getElem?_cons_succ]
          rw [show j2 + 1 + 1 = j2 + 2 from by omega] at hy
          exact hy
  | case3 a rest hnm ih =>
    rw [pass4_cons_eq a rest hnm]
    intro i
    match i with
    | 0 =>
      left
      rw [List.getElem?_cons_zero, List.getElem?_cons_zero]
    | (j + 1) =>
      rcases ih j with hA | ⟨hA1, hA2, hA3, ⟨x, hx, hvx⟩, ⟨y, hy, hvy⟩⟩
      · left
        rw [List.getElem?_cons_succ, List.getElem?_cons_succ, hA]
      · right
        obtain ⟨j2, rfl⟩ : ∃ j2, j = j2 + 1 := ⟨j - 1, by omega⟩
        refine ⟨?_, ?_, by omega, ⟨x, ?_, hvx⟩, ⟨y, ?_, hvy⟩⟩
        · rw [List.getElem?_cons_succ]
          exact hA1
        · rw [List.getElem?_cons_succ]
          exact hA2
        · rw [show j2 + 1 + 1 - 1 = j2 + 1 from by omega,
            List.getElem?_cons_succ]
          rw [show j2 + 1 - 1 = j2 from by omega] at hx
          exact hx
        · rw [show j2 + 1 + 1 + 1 = j2 + 2 + 1 from by omega,
            List.getElem?_cons_succ]
          rw [show j2 + 1 + 1 = j2 + 2 from by omega] at hy
          exact hy
  | case4 =>
    intro i
    left
    rw [pass4]

/-- Pass 4 never creates a line break. -/
theorem pass4_nl (l : List Char) : ∀ i : Nat,
    (pass4 l)[i]? = some '\n' → l[i]? = some '\n' := by
  intro i hi
  rcases pass4_cases l i with hA | ⟨hA1, _, _, _, _⟩
  · rw [← hA]
    exact hi
  · rw [hA1] at hi
    injection hi

/-- Pass 4 keeps every character that is not a line break. -/
theorem pass4_keep (l : List Char) : ∀ (i : Nat) (c : Char),
    l[i]? = some c → c ≠ '\n' → (pass4 l)[i]? = some c := by
  intro i c hi hc
  rcases pass4_cases l i with hA | ⟨_, hA2, _, _, _⟩
  · rw [hA]
    exact hi
  · rw [hi] at hA2
    injection hA2 with hA2
    exact absurd hA2 hc

/-- Pass 4 preserves the absence of two adjacent spaces. -/
theorem pass4_noDSp (l : List Char) (h2 : noDSp l) (h3 : noSpNl l) :
    noDSp (pass4 l) := by
  intro hin
  obtain ⟨i, ha, hb⟩ := (infix_pair_positions ' ' ' ' _).mp hin
  rcases pass4_cases l i with hA | ⟨_, hA2, _, _, ⟨y, hy, hvy⟩⟩
  · have hAi : l[i]? = some ' ' := by
      rw [← hA]
      exact ha
    rcases pass4_cases l (i + 1) with hB | ⟨_, hB2, _, _, _⟩
    · have hBi : l[i + 1]? = some ' ' := by
        rw [← hB]
        exact hb
      exact h2 ((infix_pair_positions ' ' ' ' l).mpr ⟨i, hAi, hBi⟩)
    · exact h3.1 ((infix_pair_positions ' ' '\n' l).mpr ⟨i, hAi, hB2⟩)
  · rcases pass4_cases l (i + 1) with hB | ⟨_, hB2, _, _, _⟩
    · have hBi : l[i + 1]? = some ' ' := by
        rw [← hB]
        exact hb
      rw [hBi] at hy
      injection hy with hy
      exact vietLower_ne_sp y hvy hy.symm
    · rw [hB2] at hy
      injection hy with hy
      exact vietLower_ne_nl y hvy hy.symm

/-- Pass 4 preserves the absence of a space next to a line break. -/
theorem pass4_noSpNl (l : List Char) (h3 : noSpNl l) :
    noSpNl (pass4 l) := by
  constructor
  · intro hin
    obtain ⟨i, ha, hb⟩ := (infix_pair_positions ' ' '\n' _).mp hin
    have hbnl := pass4_nl l (i + 1) hb
    rcases pass4_cases l i with hA | ⟨_, _, _, _, ⟨y, hy, hvy⟩⟩
    · exact h3.1 ((infix_pair_positions ' ' '\n' l).mpr
        ⟨i, by rw [← hA]; exact ha, hbnl⟩)
    · rw [hbnl] at hy
      injection hy with hy
      exact vietLower_ne_nl y hvy hy.symm
  · intro hin
    obtain ⟨i, ha, hb⟩ := (infix_pair_positions '\n' ' ' _).mp hin
    have hanl := pass4_nl l i ha
    rcases pass4_cases l (i + 1) with hB | ⟨_, _, _, ⟨x, hx, hvx⟩, _⟩
    · exact h3.2 ((infix_pair_positions '\n' ' ' l).mpr
        ⟨i, hanl, by rw [← hB]; exact hb⟩)
    · rw [show i + 1 - 1 = i from by omega, hanl] at hx
      injection hx with hx
      exact vietLower_ne_nl x hvx hx.symm

/-- Pass 4 preserves tab-freeness. -/
theorem pass4_noTab (l : List Char) (h : noTab l) : noTab (pass4 l) := by
  intro hm
  obtain ⟨i, hi⟩ := List.mem_iff_getElem?.mp hm
  rcases pass4_cases l i with hA | ⟨hA1, _, _, _, _⟩
  · exact h (List.mem_iff_getElem?.mpr ⟨i, by rw [← hA]; exact hi⟩)
  · rw [hA1] at hi
    injection hi with hi
    exact absurd hi (by decide)

/-- Pass 5 preserves the length of the text. -/
theorem pass5_length (l : List Char) : (pass5 l).length = l.length := by
  simp [pass5]

/-- Each position of the output of pass 5 either carries the input
character or turns an isolated line break into a space. -/
theorem pass5_cases (l : List Char) (i : Nat) :
    (pass5 l)[i]? = l[i]? ∨
      ((pass5 l)[i]? = some ' ' ∧ l[i]? = some '\n' ∧
        ¬ (i ≠ 0 ∧ l[i - 1]? = some '\n') ∧ l[i + 1]? ≠ some '\n') := by
  rw [pass5, List.getElem?_mapIdx]
  match hl : l[i]? with
  | none => left; rfl
  | some c =>
    simp only [Option.map_some']
    by_cases hcond : (c = '\n' ∧ ¬ (i ≠ 0 ∧ l[i - 1]? = some '\n') ∧
        l[i + 1]? ≠ some '\n')
    · rw [if_pos hcond]
      right
      refine ⟨rfl, ?_, hcond.2.1, hcond.2.2⟩
      rw [hcond.1]
    · rw [if_neg hcond]
      left
      rfl

/-- Pass 5 keeps every character that is not a line break. -/
theorem pass5_keep (l : List Char) : ∀ (i : Nat) (c : Char),
    l[i]? = some c → c ≠ '\n' → (pass5 l)[i]? = some c := by
  intro i c hi hc
  rcases pass5_cases l i with hA | ⟨_, hA2, _, _⟩
  · rw [hA]
    exact hi
  · rw [hi] at hA2
    injection hA2 with hA2
    exact absurd hA2 hc

/-- Pass 5 never creates a line break. -/
theorem pass5_nlkeep (l : List Char) : ∀ i : Nat,
    (pass5 l)[i]? = some '\n' → l[i]? = some '\n' := by
  intro i hi
  rcases pass5_cases l i with hA | ⟨hA1, _, _, _⟩
  · rw [← hA]
    exact hi
  · rw [hA1] at hi
    injection hi

/-- Pass 5 preserves the absence of two adjacent spaces. -/
theorem pass5_noDSp (l : List Char) (h2 : noDSp l) (h3 : noSpNl l) :
    noDSp (pass5 l) := by
  intro hin
  obtain ⟨i, ha, hb⟩ := (infix_pair_positions ' ' ' ' _).mp hin
  rcases pass5_cases l i with hA | ⟨_, hA2, _, hA4⟩
  · have hAi : l[i]? = some ' ' := by
      rw [← hA]
      exact ha
    rcases pass5_cases l (i + 1) with hB | ⟨_, hB2, _, _⟩
    · exact h2 ((infix_pair_positions ' ' ' ' l).mpr
        ⟨i, hAi, by rw [← hB]; exact hb⟩)
    · exact h3.1 ((infix_pair_positions ' ' '\n' l).mpr ⟨i, hAi, hB2⟩)
  · rcases pass5_cases l (i + 1) with hB | ⟨_, hB2, _, _⟩
    · have hBi : l[i + 1]? = some ' ' := by
        rw [← hB]
        exact hb
      exact h3.2 ((infix_pair_positions '\n' ' ' l).mpr ⟨i, hA2, hBi⟩)
    · exact hA4 hB2

/-- Pass 5 preserves the absence of a space next to a line break. -/
theorem pass5_noSpNl (l : List Char) (h3 : noSpNl l) :
    noSpNl (pass5 l) := by
  constructor
  · intro hin
    obtain ⟨i, ha, hb⟩ := (infix_pair_positions ' ' '\n' _).mp hin
    have hbnl := pass5_nlkeep l (i + 1) hb
    rcases pass5_cases l i with hA | ⟨_, _, _, hA4⟩
    · exact h3.1 ((infix_pair_positions ' ' '\n' l).mpr
        ⟨i, by rw [← hA]; exact ha, hbnl⟩)
    · exact hA4 hbnl
  · intro hin
    obtain ⟨i, ha, hb⟩ := (infix_pair_positions '\n' ' ' _).mp hin
    have hanl := pass5_nlkeep l i ha
    rcases pass5_cases l (i + 1) with hB | ⟨_, _, hB3, _⟩
    · exact h3.2 ((infix_pair_positions '\n' ' ' l).mpr
        ⟨i, hanl, by rw [← hB]; exact hb⟩)
    · apply hB3
      refine ⟨by omega, ?_⟩
      rw [show i + 1 - 1 = i from by omega]
      exact hanl

/-- In the output of pass 5 every line break is next to a line break. -/
theorem pass5_NoIso (l : List Char) : NoIso (pass5 l) := by
  intro s t heq
  have h1 : (pass5 l)[s.length]? = some '\n' := by
    rw [heq, List.getElem?_append_right (le_refl _), Nat.sub_self]
    simp
  rcases pass5_nl l s.length h1 with ⟨h0, hprev⟩ | hnext
  · left
    rw [heq, List.getElem?_append_left (by omega)] at hprev
    rw [List.getLast?_eq_getElem?]
    exact hprev
  · right
    rw [heq, List.getElem?_append_right (by omega),
      show s.length + 1 - s.length = 1 from by omega] at hnext
    cases t with
    | nil => simp at hnext
    | cons d m =>
      rw [getElem?_c1] at hnext
      exact hnext

/-- Pass 5 preserves tab-freeness. -/
theorem pass5_noTab (l : List Char) (h : noTab l) : noTab (pass5 l) := by
  intro hm
  obtain ⟨i, hi⟩ := List.mem_iff_getElem?.mp hm
  rcases pass5_cases l i with hA | ⟨hA1, _, _, _⟩
  · exact h (List.mem_iff_getElem?.mpr ⟨i, by rw [← hA]; exact hi⟩)
  · rw [hA1] at hi
    injection hi with hi
    exact absurd hi (by decide)

/-- The stripped text neither starts nor ends with whitespace. -/
theorem pyStrip_noWsEnds (l : List Char) : noWsEnds (pyStrip l) := by
  constructor
  · intro c hc
    rw [pyStrip, List.head?_reverse] at hc
    have hBne : (l.dropWhile isPyWS).reverse.dropWhile isPyWS ≠ [] := by
      intro h0
      rw [h0] at hc
      simp at hc
    obtain ⟨pre, hpre⟩ := List.dropWhile_suffix
      (l := (l.dropWhile isPyWS).reverse) isPyWS
    have hlast : (l.dropWhile isPyWS).reverse.getLast? = some c := by
      rw [← hpre, getLast?_append_ne _ _ hBne]
      exact hc
    rw [List.getLast?_reverse] at hlast
    exact head?_dropWhile_not isPyWS l c hlast
  · intro c hc
    rw [pyStrip, List.getLast?_reverse] at hc
    exact head?_dropWhile_not isPyWS _ c hc

/-- Stripping whitespace from the ends keeps every line break next to a
line break: the first and last characters of the stripped text are not
whitespace, so no line break sits at a cut. -/
theorem pyStrip_NoIso (l : List Char) (h : NoIso l) :
    NoIso (pyStrip l) := by
  intro s t heq
  have hW := pyStrip_noWsEnds l
  obtain ⟨u, v, huv⟩ := pyStrip_isInfix l
  cases s with
  | nil =>
    exfalso
    have hh : (pyStrip l).head? = some '\n' := by
      rw [heq]
      rfl
    exact absurd (hW.1 '\n' hh) (by decide)
  | cons c s2 =>
    cases t with
    | nil =>
      exfalso
      have hh : (pyStrip l).getLast? = some '\n' := by
        rw [heq]
        exact List.getLast?_concat _
      exact absurd (hW.2 '\n' hh) (by decide)
    | cons d t2 =>
      have hl : l = (u ++ (c :: s2)) ++ '\n' :: ((d :: t2) ++ v) := by
        rw [← huv, heq]
        simp [List.append_assoc]
      rcases h (u ++ (c :: s2)) ((d :: t2) ++ v) hl with hL | hR
      · left
        rw [getLast?_append_ne u (c :: s2) (List.cons_ne_nil c s2)] at hL
        exact hL
      · right
        rw [head?_append_ne (d :: t2) v (List.cons_ne_nil d t2)] at hR
        exact hR

/-- Claim C3: the text normalizer `clean_text` is idempotent — cleaning an
already cleaned text returns it unchanged.  One run of the pipeline
establishes every invariant the seven passes enforce (no tabs, no double
spaces, no space next to a line break, no isolated line break, no
whitespace-only block between line breaks, no letter-break-letter
occurrence, no whitespace at the ends), and each pass is the identity on
texts with its invariant. -/
theorem claim_C3 (x : List Char) :
    clean_text (clean_text x) = clean_text x := by
  have hDSp_a : noDSp (pass1 x) := pass1_noDSp x
  have hTab_a : noTab (pass1 x) := pass1_noTab x
  have hPS_b : PairSep (pass2 (pass1 x)) := pass2_PairSep _
  have hDSp_b : noDSp (pass2 (pass1 x)) := pass2_noDSp _ hDSp_a
  have hTab_b : noTab (pass2 (pass1 x)) := pass2_noTab _ hTab_a
  have hDSp_c := pass3_noDSp _ hDSp_b
  have hSpNl_c := pass3_noSpNl (pass2 (pass1 x))
  have hPS_c := SubSp_PairSep (pass3_SubSp _) hPS_b
  have hTab_c := pass3_noTab _ hTab_b
  have hDSp_d := pass4_noDSp _ hDSp_c hSpNl_c
  have hSpNl_d := pass4_noSpNl _ hSpNl_c
  have hPS_d := PairSep_pointwise _ _ (pass4_length _) (pass4_nl _)
    (pass4_keep _) hPS_c
  have hTab_d := pass4_noTab _ hTab_c
  have hDSp_e := pass5_noDSp _ hDSp_d hSpNl_d
  have hSpNl_e := pass5_noSpNl _ hSpNl_d
  have hPS_e := PairSep_pointwise _ _ (pass5_length _) (pass5_nlkeep _)
    (pass5_keep _) hPS_d
  have hTab_e := pass5_noTab _ hTab_d
  have hIso_e := pass5_NoIso (pass4 (pass3 (pass2 (pass1 x))))
  have hVNV_e := pass5_noVNV (pass4 (pass3 (pass2 (pass1 x))))
  have hfe : pass6 (pass5 (pass4 (pass3 (pass2 (pass1 x))))) =
      pass5 (pass4 (pass3 (pass2 (pass1 x)))) := pass6_id _ hDSp_e
  have hy : clean_text x =
      pyStrip (pass5 (pass4 (pass3 (pass2 (pass1 x))))) := by
    rw [clean_text, hfe]
  have hInf := pyStrip_isInfix (pass5 (pass4 (pass3 (pass2 (pass1 x)))))
  have hTab_y := noTab_mono _ _ hInf hTab_e
  have hDSp_y := notInfix_mono _ _ _ hDSp_e hInf
  have hSpNl_y : noSpNl (pyStrip (pass5 (pass4 (pass3 (pass2
      (pass1 x)))))) :=
    ⟨notInfix_mono _ _ _ hSpNl_e.1 hInf, notInfix_mono _ _ _ hSpNl_e.2 hInf⟩
  have hPS_y := PairSep_mono _ _ hInf hPS_e
  have hIso_y := pyStrip_NoIso _ hIso_e
  have hVNV_y := noVNV_mono _ _ hInf hVNV_e
  have hW_y := pyStrip_noWsEnds (pass5 (pass4 (pass3 (pass2 (pass1 x)))))
  rw [hy, clean_text, pass1_id _ hTab_y hDSp_y, pass2_id _ hPS_y,
    pass3_id _ hDSp_y hSpNl_y, pass4_id _ hVNV_y, pass5_id _ hIso_y,
    pass6_id _ hDSp_y, pyStrip_id _ hW_y]

end RagPipeline
